import Mathlib

/-!
The hungrilla crawler: a shallow embedding.

The crawler of `crawler/crawler.go` is embedded in two layers.

* The sequential layer gives each function of the source (`NewWithConfig`,
  `Begin`, `pull`, `outer`, `inner`) as a Lean function.  The control flow of
  every goroutine depends only on what the outside world returns (fetched
  documents, parsed durations), never on shared memory, so a goroutine is
  the list of the synchronisation operations it performs, in program order.
* The concurrent layer is an interleaving semantics over those lists:
  unbuffered channels (a send completes only in a rendezvous with a
  goroutine that is receiving), two wait groups, and the two shared slices.
  The statement `t.restaurants = append(t.restaurants, r)` of the aggregation
  loop is two moves, the read of the slice and the assignment, because the
  source runs one aggregation goroutine per fetched page and puts no lock
  around it.

Go strings are Lean strings, Go `int` is `Int` with the 64 bit range checked
where the source parses numbers.
-/

namespace Hungrilla

deriving instance DecidableEq for Except

/-! ## Strings: the parts of `strings` and `strconv` the crawler calls -/

/-- Go `unicode.IsSpace`: the white space characters that `strings.TrimSpace` removes. -/
def isSpace (c : Char) : Bool :=
  let n := c.toNat
  (9 ≤ n && n ≤ 13) || n == 0x20 || n == 0x85 || n == 0xA0 || n == 0x1680 ||
    (0x2000 ≤ n && n ≤ 0x200A) || n == 0x2028 || n == 0x2029 || n == 0x202F ||
    n == 0x205F || n == 0x3000

/-- Removes the leading white space of a character list. -/
def trimLeft : List Char → List Char
  | [] => []
  | c :: cs => if isSpace c then trimLeft cs else c :: cs

/-- Go `strings.TrimSpace`: removes leading and trailing white space. -/
def TrimSpace (s : String) : String :=
  String.mk (trimLeft (trimLeft s.data).reverse).reverse

/-- Splits a character list at every occurrence of the character `sep`;
`cur` holds, reversed, the piece being read. -/
def splitAux (sep : Char) : List Char → List Char → List String
  | [], cur => [String.mk cur.reverse]
  | c :: cs, cur =>
    if c = sep then String.mk cur.reverse :: splitAux sep cs []
    else splitAux sep cs (c :: cur)

/-- Go `strings.Split(s, " ")`: the pieces of `s` between single space
characters; two adjacent spaces give an empty piece, and a string without a
space gives one piece. -/
def SplitSpace (s : String) : List String :=
  splitAux ' ' s.data []

/-- Value of a list of decimal digits read left to right on top of `acc`;
`none` when a character is not one of `0` to `9`. -/
def digitsValue : List Char → Nat → Option Nat
  | [], acc => some acc
  | c :: cs, acc =>
    if '0' ≤ c ∧ c ≤ '9' then digitsValue cs (acc * 10 + (c.toNat - '0'.toNat))
    else none

/-- The two ways `strconv` fails: `ErrSyntax` and `ErrRange`. -/
inductive NumErrKind
  | syntaxErr
  | rangeErr
  deriving DecidableEq

/-- Go `error` values the crawler can meet. -/
inductive GoError
  /-- an error returned by `goquery.NewDocument` -/
  | fetch (url : String)
  /-- a `*strconv.NumError` -/
  | num (func : String) (input : String) (kind : NumErrKind)
  /-- an error returned by `inhuman.Parse` -/
  | duration (text : String)
  deriving DecidableEq

/-- Base 10 parsing shared by `strconv.Atoi` and `strconv.ParseInt(s, 10, 64)`:
an optional sign, then at least one decimal digit and nothing else, the
value within the 64 bit signed range. -/
def parseDecimal (func : String) (s : String) : Except GoError Int :=
  let body (neg : Bool) (ds : List Char) : Except GoError Int :=
    match ds with
    | [] => .error (.num func s .syntaxErr)
    | _ :: _ =>
      match digitsValue ds 0 with
      | none => .error (.num func s .syntaxErr)
      | some v =>
        if neg then
          if v ≤ 2 ^ 63 then .ok (-(v : Int)) else .error (.num func s .rangeErr)
        else
          if v < 2 ^ 63 then .ok (v : Int) else .error (.num func s .rangeErr)
  match s.data with
  | [] => .error (.num func s .syntaxErr)
  | '+' :: ds => body false ds
  | '-' :: ds => body true ds
  | ds => body false ds

/-- Go `strconv.Atoi`. -/
def Atoi (s : String) : Except GoError Int :=
  parseDecimal "Atoi" s

/-- Go `strconv.ParseInt(s, 10, 64)`. -/
def ParseInt (s : String) : Except GoError Int :=
  parseDecimal "ParseInt" s

/-! ## Data model (package `model`) -/

/-- The struct `model.Review`. `PostedAt` is a point in time, kept as a number. -/
structure Review where
  Author : String
  PostedAt : Int
  Rating : Int
  Text : String
  deriving DecidableEq

/-- Modelled from the spec: the declaration of `model.Serving` is not among the
source files. The spec gives a serving a kind label and an integer price;
`inner` builds it as `model.Serving{Type: kind, Price: price}`. The field
`Type` is written `Typ` here, `Type` being reserved. -/
structure Serving where
  Typ : String
  Price : Int
  deriving DecidableEq

/-- Modelled from the spec: the declaration of `model.Meal` is not among the
source files. The spec gives a meal a name, an optional description and an
ordered sequence of servings; `inner` assigns `Type`, `Name`, `Description`
and appends to `Servings`. -/
structure Meal where
  Typ : String
  Name : String
  Description : String
  Servings : List Serving
  deriving DecidableEq

/-- The struct `model.Restaurant`. `DeliveryTime` is a `time.Duration`, a
number of nanoseconds. -/
structure Restaurant where
  ImgURL : String
  URL : String
  Title : String
  DeliveryTime : Int
  Typ : String
  Rating : Int
  Menu : List Meal
  Reviews : List Review
  deriving DecidableEq

/-- The zero value `model.Meal{}`. -/
def Meal.zero : Meal := ⟨"", "", "", []⟩

/-- The zero value `model.Restaurant{}`. -/
def Restaurant.zero : Restaurant := ⟨"", "", "", 0, "", 0, [], []⟩

/-! ## Documents: what the selectors of the crawler see

`goquery` is an external collaborator. A fetched document is represented by
what the fixed selector paths of the crawler return on it, in document order.
-/

/-- One `.menu-subitems > .menu-subitem` block of a menu item. -/
structure SubItem where
  /-- text of `.subitem-name` -/
  subitemName : String
  /-- the `value` attribute of `input[type=hidden]#ItemPrice`, `none` when
  the attribute does not exist -/
  itemPrice : Option String
  /-- text of `.subitem-price > span` -/
  priceSpan : String
  deriving DecidableEq

/-- One `.menu-item` block of a category. -/
structure MenuItem where
  /-- text of the text nodes among the contents of `.menu-item-name` -/
  nameText : String
  /-- text of `.menu-item-name > small` -/
  small : String
  subitems : List SubItem
  deriving DecidableEq

/-- One `.tab-pane.mspan7-menu` block of a detail page. -/
structure TabPane where
  /-- text of `h4` -/
  h4 : String
  items : List MenuItem
  deriving DecidableEq

/-- One `section#listing-container > article` node of a listing page. -/
structure Card where
  /-- attribute `src` of the first `.item-pic > img`, `none` when absent -/
  imgSrc : Option String
  /-- attribute `href` of the first `.item-pic > a`, `none` when absent -/
  href : Option String
  /-- text of `.item-title > a` -/
  title : String
  /-- attribute `data-rating` of `.item-title > span.item-star-rating`, `none` when
  absent -/
  dataRating : Option String
  /-- text of `.item-meta > .item-address` -/
  address : String
  /-- text of the last child of the first `.item-meta .row-fluid .span4` -/
  deliveryText : String
  deriving DecidableEq

/-- A fetched document, seen through the two top level selectors. -/
structure Document where
  articles : List Card
  panes : List TabPane
  deriving DecidableEq

/-- The struct `conf.Conf`. -/
structure Conf where
  BaseURL : String
  City : String
  MaxPages : Int
  deriving DecidableEq

/-- Everything outside the crawler: the loaded configuration `conf.Get()`,
the fetcher `goquery.NewDocument` and the duration parser `inhuman.Parse`. -/
structure World where
  cnf : Conf
  NewDocument : String → Except GoError Document
  inhumanParse : String → Except GoError Int

/-! ## The crawler -/

/-- The struct `Config`. A channel is `none` when it is `nil`, otherwise the
identity of the channel the caller made. -/
structure Config where
  MaxPages : Int
  BaseUrl : String
  City : String
  Async : Bool
  OutItem : Option Nat
  OutErr : Option Nat
  OutDone : Option Nat
  deriving DecidableEq

/-- The fields of the struct `Crawler` that are fixed once it is built. The
channels `chRest` and `chErr` are made fresh and unbuffered by the
constructor; the wait groups and the two slices are the shared state of a
run, see `State`. -/
structure Crawler where
  maxPages : Int
  baseUrl : String
  city : String
  uri : String
  async : Bool
  outItem : Option Nat
  outErr : Option Nat
  outDone : Option Nat
  deriving DecidableEq

/-- The zero value `&Crawler{}` the constructor starts from. -/
def Crawler.zero : Crawler := ⟨0, "", "", "", false, none, none, none⟩

/-- The function `NewWithConfig`. A panic is `Except.error` with the panic
value; `cnf` is what `conf.Get()` returns. -/
def NewWithConfig (cnf : Conf) (c : Config) : Except String Crawler := do
  let crw := Crawler.zero
  let crw ←
    if c.Async then
      if c.OutItem = none ∨ c.OutDone = none ∨ c.OutErr = none then
        throw "channels should be provided when running in async mode"
      else
        pure { crw with async := c.Async, outItem := c.OutItem, outDone := c.OutDone,
                        outErr := c.OutErr }
    else
      pure { crw with async := false }
  let crw :=
    if c.MaxPages ≠ 0 then { crw with maxPages := c.MaxPages }
    else { crw with maxPages := cnf.MaxPages }
  let crw :=
    if c.BaseUrl ≠ "" then { crw with baseUrl := c.BaseUrl }
    else { crw with baseUrl := cnf.BaseURL }
  let crw :=
    if c.City ≠ "" then { crw with city := c.City }
    else { crw with city := cnf.City }
  return { crw with uri := crw.baseUrl ++ "/" ++ crw.city ++ "/delivery" }

/-! ### `inner`: the detail extractor -/

/-- Lines 249 to 255: the string handed to `strconv.Atoi` for one serving. -/
def priceString (s : SubItem) : String :=
  match s.itemPrice with
  | some p => p
  | none =>
    match SplitSpace (TrimSpace s.priceSpan) with
    | _ :: p :: _ => p
    | _ => ""

/-- The closure run on each `.menu-subitem` (lines 246 to 274), acting on
the captured `meal` and on the list of errors sent on `chErr` so far. -/
def servingStep (st : Meal × List GoError) (s : SubItem) : Meal × List GoError :=
  let kind := TrimSpace s.subitemName
  match Atoi (priceString s) with
  | .error err => (st.1, st.2 ++ [err])
  | .ok price => ({ st.1 with Servings := st.1.Servings ++ [⟨kind, price⟩] }, st.2)

/-- The variables the closures of `inner` share: the restaurant `r`, the
`meal` of the category being read, and the errors sent on `chErr` so far. -/
structure InnerState where
  r : Restaurant
  meal : Meal
  sent : List GoError
  deriving DecidableEq

/-- The closure run on each `.menu-item` (lines 229 to 277). -/
def itemStep (st : InnerState) (i : MenuItem) : InnerState :=
  let title := TrimSpace i.nameText
  let desc := i.small
  let meal := { st.meal with Name := title, Description := desc }
  let res := i.subitems.foldl servingStep (meal, st.sent)
  { r := { st.r with Menu := st.r.Menu ++ [res.1] }, meal := res.1, sent := res.2 }

/-- The closure run on each `.tab-pane.mspan7-menu` (lines 223 to 278): `meal`
is declared here, once per category. -/
def paneStep (st : Restaurant × List GoError) (n : TabPane) : Restaurant × List GoError :=
  let meal := { Meal.zero with Typ := n.h4 }
  let res := n.items.foldl itemStep { r := st.1, meal := meal, sent := st.2 }
  (res.r, res.sent)

/-- The method `inner`: the restaurant it returns and the errors it sends on
`chErr`, in the order it sends them. -/
def inner (w : World) (t : Crawler) (r : Restaurant) : Restaurant × List GoError :=
  let url := t.baseUrl ++ r.URL
  match w.NewDocument url with
  | .error err => (r, [err])
  | .ok doc => doc.panes.foldl paneStep (r, [])

/-! ### Goroutines as lists of operations -/

/-- The channels a crawler holds: the two it makes and the three of the caller. -/
inductive Chan
  | chRest
  | chErr
  | outItem
  | outErr
  | outDone
  deriving DecidableEq

/-- A value travelling on a channel. -/
inductive Msg
  | item (r : Restaurant)
  | err (e : GoError)
  | done (b : Bool)
  deriving DecidableEq

/-- The two wait groups of a crawler. -/
inductive WG
  | wgOuter
  | wgInner
  deriving DecidableEq

/-- The operations through which the goroutines of the crawler act on each
other: channel sends, wait group calls and `go` statements. -/
inductive Op
  /-- the statement `ch <- m` -/
  | send (ch : Chan) (m : Msg)
  /-- the call `g.Add(n)` -/
  | wgAdd (g : WG) (n : Int)
  /-- the call `g.Done()` -/
  | wgDone (g : WG)
  /-- the call `g.Wait()` -/
  | wgWait (g : WG)
  /-- the statement `go t.pull(pno)` -/
  | goPull (pno : Nat)
  /-- the statement `go t.outer(node)` -/
  | goOuter (node : Card)
  /-- the statement `go func() { for { select { ... } } }()` of `pull` -/
  | goAggregator
  deriving DecidableEq

/-- Lines 166 to 208 of `outer`: the summary fields read from a card, or the
error of the parse that stopped the reading. -/
def summary (w : World) (n : Card) : Except GoError Restaurant := do
  let r := Restaurant.zero
  let r := match n.imgSrc with
    | some imgUrl => { r with ImgURL := imgUrl }
    | none => r
  let r := match n.href with
    | some url => { r with URL := url }
    | none => r
  let r := { r with Title := n.title }
  let r ← match n.dataRating with
    | some rating =>
      match ParseInt rating with
      | .error err => throw err
      | .ok i64 => pure { r with Rating := i64 }
    | none => pure r
  let r := { r with Typ := n.address }
  match w.inhumanParse n.deliveryText with
  | .error err => throw err
  | .ok deliveryTime => pure { r with DeliveryTime := deliveryTime }

/-- The method `outer`, the restaurant worker. The deferred
`t.wgInner.Done()` runs last on every path. -/
def outer (w : World) (t : Crawler) (n : Card) : List Op :=
  (match summary w n with
    | .error err => [Op.send .chErr (.err err)]
    | .ok r =>
      let res := inner w t r
      res.2.map (fun e => Op.send .chErr (.err e)) ++ [Op.send .chRest (.item res.1)])
  ++ [Op.wgDone .wgInner]

/-- Line 127: the address of listing page `pno`. -/
def pageUrl (t : Crawler) (pno : Nat) : String :=
  t.uri ++ "?&Search_PageNo=" ++ toString pno

/-- The method `pull`, the page worker. On a failed fetch it returns before
the `defer t.wgOuter.Done()` statement is reached. -/
def pull (w : World) (t : Crawler) (pno : Nat) : List Op :=
  let url := pageUrl t pno
  match w.NewDocument url with
  | .error err => [Op.send .chErr (.err err)]
  | .ok doc =>
    let nodes := doc.articles
    [Op.wgAdd .wgInner nodes.length]
      ++ nodes.map Op.goOuter
      ++ [Op.goAggregator, Op.wgWait .wgInner, Op.wgDone .wgOuter]

/-- The method `Begin`. -/
def Begin (t : Crawler) : List Op :=
  [Op.wgAdd .wgOuter t.maxPages]
    ++ (List.range t.maxPages.toNat).map Op.goPull
    ++ [Op.wgWait .wgOuter]

/-! ## The interleaving semantics -/

/-- The function a goroutine runs. -/
inductive Fn
  | Begin
  | pull (pno : Nat)
  | outer (node : Card)
  | aggregator
  deriving DecidableEq

/-- The value an aggregation goroutine is about to assign to one of the two
slices: the statement `t.restaurants = append(t.restaurants, r)` first reads
the slice and builds the longer one, then assigns it, and nothing makes the
two together atomic. -/
inductive Store
  | restaurants (v : List Restaurant)
  | errors (v : List GoError)
  deriving DecidableEq

/-- Where a goroutine stands: the operations it still has to run, or, for
the aggregation loop of `pull`, blocked in its `select`, holding a value it
has received, or about to assign the slice it has built from that value. -/
inductive Body
  | code (ops : List Op)
  | receiving
  | holding (m : Msg)
  | storing (v : Store)
  deriving DecidableEq

/-- Whether a goroutine is in the aggregation loop. -/
def Body.inLoop : Body → Bool
  | .code _ => false
  | _ => true

/-- A goroutine: its function, the goroutine whose `go` statement started it
(`none` for the caller of `Begin`), and where it stands. -/
structure Goroutine where
  fn : Fn
  parent : Option Nat
  body : Body
  deriving DecidableEq

/-- The shared state of a run: every goroutine started so far (a finished
one stays, with no operation left), the counters of the two wait groups, the
slices `t.restaurants` and `t.errors`, the values sent on the channels of
the caller, and whether the program has panicked. -/
structure State where
  gs : List Goroutine
  wgOuter : Int
  wgInner : Int
  restaurants : List Restaurant
  errors : List GoError
  out : List (Chan × Msg)
  panicked : Bool
  deriving DecidableEq

/-- The state in which the caller is about to run `t.Begin()`. -/
def init (t : Crawler) : State :=
  { gs := [⟨.Begin, none, .code (Begin t)⟩], wgOuter := 0, wgInner := 0,
    restaurants := [], errors := [], out := [], panicked := false }

/-- Counter of a wait group. -/
def State.counter (s : State) : WG → Int
  | .wgOuter => s.wgOuter
  | .wgInner => s.wgInner

/-- Gives a goroutine a new body. -/
def Goroutine.withBody (b : Body) (g : Goroutine) : Goroutine :=
  { g with body := b }

/-- Replaces the body of goroutine `i`, which is `g`. -/
def State.setBody (s : State) (i : Nat) (g : Goroutine) (b : Body) : State :=
  { s with gs := s.gs.set i (g.withBody b) }

/-- The goroutines an operation run by goroutine `i` starts. -/
def Op.spawned (w : World) (t : Crawler) (i : Nat) : Op → List Goroutine
  | .goPull pno => [⟨.pull pno, some i, .code (pull w t pno)⟩]
  | .goOuter node => [⟨.outer node, some i, .code (outer w t node)⟩]
  | .goAggregator => [⟨.aggregator, some i, .receiving⟩]
  | _ => []

/-- What an operation adds to the counter of wait group `g`: `Done` is `Add(-1)`. -/
def Op.delta (g : WG) : Op → Int
  | .wgAdd g1 n => if g1 = g then n else 0
  | .wgDone g1 => if g1 = g then -1 else 0
  | _ => 0

/-- The value an operation hands to the caller: a send on one of the three
channels of the caller. -/
def Op.emitted : Op → List (Chan × Msg)
  | .send .outItem m => [(.outItem, m)]
  | .send .outErr m => [(.outErr, m)]
  | .send .outDone m => [(.outDone, m)]
  | _ => []

/-- Whether a goroutine can run the operation on its own: a send on `chRest`
or `chErr`, both unbuffered, needs a receiver (see `Move.comm`), and `Wait`
needs the counter at zero. -/
def Op.ready (s : State) : Op → Bool
  | .send .chRest _ => false
  | .send .chErr _ => false
  | .wgWait g => s.counter g = 0
  | _ => true

/-- First half of lines 151 and 153: the aggregation goroutine reads the
slice as it is now and builds the slice with the received value appended.
Only restaurants arrive on `chRest` and errors on `chErr`. -/
def State.load (s : State) : Msg → Body
  | .item r => .storing (.restaurants (s.restaurants ++ [r]))
  | .err e => .storing (.errors (s.errors ++ [e]))
  | .done _ => .receiving

/-- Second half of lines 151 and 153: the assignment to the slice, which
overwrites whatever another aggregation goroutine has assigned meanwhile. -/
def State.store (s : State) (v : Store) : State :=
  { s with
    restaurants := match v with
      | .restaurants rs => rs
      | .errors _ => s.restaurants
    errors := match v with
      | .restaurants _ => s.errors
      | .errors es => es }

/-- One move of the scheduler. -/
inductive Move
  /-- goroutine `i` runs its next operation, other than a send on `chRest`
  or `chErr`; an aggregation goroutine reads the slice, or assigns it -/
  | step (i : Nat)
  /-- the send goroutine `i` is blocked on, on `chRest` or `chErr`, meets the
  `select` of aggregation goroutine `j` -/
  | comm (i j : Nat)
  deriving DecidableEq

/-- The state after a move, `none` when the move is not possible: the
goroutine does not exist, has finished, is blocked, or the program has
panicked. A wait group counter that would become negative panics, which
stops the program. -/
def exec (w : World) (t : Crawler) (s : State) : Move → Option State
  | .step i =>
    if s.panicked then none
    else
      match s.gs[i]? with
      | none => none
      | some g =>
        match g.body with
        | .code [] => none
        | .code (op :: rest) =>
          if op.ready s then
            if s.wgOuter + op.delta .wgOuter < 0 ∨ s.wgInner + op.delta .wgInner < 0 then
              some { s with panicked := true }
            else
              some { s with
                gs := s.gs.set i (g.withBody (.code rest)) ++ op.spawned w t i
                wgOuter := s.wgOuter + op.delta .wgOuter
                wgInner := s.wgInner + op.delta .wgInner
                out := s.out ++ op.emitted }
          else none
        | .receiving => none
        | .holding m => some (s.setBody i g (s.load m))
        | .storing v => some ((s.setBody i g .receiving).store v)
  | .comm i j =>
    if s.panicked then none
    else
      match s.gs[i]?, s.gs[j]? with
      | some g, some a =>
        match g.body, a.body with
        | .code (.send ch m :: rest), .receiving =>
          if ch = .chRest ∨ ch = .chErr then
            some ((s.setBody i g (.code rest)).setBody j a (.holding m))
          else none
        | _, _ => none
      | _, _ => none

/-- The state after a sequence of moves, `none` when one of them is not possible. -/
def run (w : World) (t : Crawler) (s : State) : List Move → Option State
  | [] => some s
  | m :: ms =>
    match exec w t s m with
    | none => none
    | some s1 => run w t s1 ms

/-- The states a run of `Begin` can be in. -/
def Reachable (w : World) (t : Crawler) (s : State) : Prop :=
  ∃ ms, run w t (init t) ms = some s

/-- The possible moves as a relation between a state, a move and the state
after it, one constructor for each way `exec` succeeds. -/
inductive Step (w : World) (t : Crawler) : State → Move → State → Prop
  /-- a wait group call that would make a counter negative panics -/
  | panic (s : State) (i : Nat) (g : Goroutine) (op : Op) (rest : List Op)
      (hg : s.gs[i]? = some g) (hb : g.body = .code (op :: rest))
      (hready : op.ready s = true)
      (hneg : s.wgOuter + op.delta .wgOuter < 0 ∨ s.wgInner + op.delta .wgInner < 0) :
      Step w t s (.step i) { s with panicked := true }
  /-- a goroutine runs its next operation -/
  | op (s : State) (i : Nat) (g : Goroutine) (op : Op) (rest : List Op)
      (hg : s.gs[i]? = some g) (hb : g.body = .code (op :: rest))
      (hready : op.ready s = true)
      (hpos : ¬ (s.wgOuter + op.delta .wgOuter < 0 ∨ s.wgInner + op.delta .wgInner < 0)) :
      Step w t s (.step i) { s with
        gs := s.gs.set i (g.withBody (.code rest)) ++ op.spawned w t i
        wgOuter := s.wgOuter + op.delta .wgOuter
        wgInner := s.wgInner + op.delta .wgInner
        out := s.out ++ op.emitted }
  /-- an aggregation goroutine reads the slice and builds the longer one -/
  | load (s : State) (i : Nat) (g : Goroutine) (m : Msg)
      (hg : s.gs[i]? = some g) (hb : g.body = .holding m) :
      Step w t s (.step i) (s.setBody i g (s.load m))
  /-- an aggregation goroutine assigns the slice it has built -/
  | store (s : State) (i : Nat) (g : Goroutine) (v : Store)
      (hg : s.gs[i]? = some g) (hb : g.body = .storing v) :
      Step w t s (.step i) ((s.setBody i g .receiving).store v)
  /-- a send on `chRest` or `chErr` meets a `select` -/
  | comm (s : State) (i j : Nat) (g a : Goroutine) (ch : Chan) (m : Msg) (rest : List Op)
      (hg : s.gs[i]? = some g) (ha : s.gs[j]? = some a)
      (hb : g.body = .code (.send ch m :: rest)) (hr : a.body = .receiving)
      (hch : ch = .chRest ∨ ch = .chErr) :
      Step w t s (.comm i j) ((s.setBody i g (.code rest)).setBody j a (.holding m))

/-! ## Measures on goroutines, used in the proofs -/

/-- Sum of the weights of a list of operations. -/
def opsWt (wt : Op → Int) (ops : List Op) : Int :=
  (ops.map wt).sum

/-- Weight of what a goroutine still has to run. -/
def Body.wt (wt : Op → Int) : Body → Int
  | .code ops => opsWt wt ops
  | _ => 0

/-- Weight of what all goroutines still have to run. -/
def total (wt : Op → Int) (gs : List Goroutine) : Int :=
  (gs.map (fun g => g.body.wt wt)).sum

/-- What an operation still owes to the counter of `wgInner`: a pending
`Add(n)` will raise it by `n`, a pending `Done` and a worker not yet started
will lower it by one. -/
def wtInner : Op → Int
  | .wgAdd .wgInner n => -n
  | .wgDone .wgInner => 1
  | .goOuter _ => 1
  | _ => 0

/-- Whether the fetch of listing page `pno` succeeds. -/
def pageOk (w : World) (t : Crawler) (pno : Nat) : Bool :=
  match w.NewDocument (pageUrl t pno) with
  | .ok _ => true
  | .error _ => false

/-- What an operation still owes to the counter of `wgOuter`: a page worker
not yet started will lower it by one only if its fetch succeeds. -/
def wtOuter (w : World) (t : Crawler) : Op → Int
  | .wgAdd .wgOuter n => -n
  | .wgDone .wgOuter => 1
  | .goPull pno => if pageOk w t pno then 1 else 0
  | _ => 0

/-- A goroutine is well formed when what it still has to run is a tail of
the code of its function; an aggregation goroutine is in its loop. -/
def WF (w : World) (t : Crawler) (g : Goroutine) : Prop :=
  match g.fn, g.body with
  | .Begin, .code ops => ops <:+ Begin t
  | .pull pno, .code ops => ops <:+ pull w t pno
  | .outer node, .code ops => ops <:+ outer w t node
  | .aggregator, .receiving => True
  | .aggregator, .holding _ => True
  | .aggregator, .storing _ => True
  | _, _ => False

/-- Goroutine `g` of state `s` has moved and is now `g1`: it ran the
operation at the head of its code, or it is an aggregation goroutine that
went on in its loop. -/
def Moved (s : State) (g g1 : Goroutine) : Prop :=
  g1.fn = g.fn ∧ g1.parent = g.parent ∧
    ((∃ op rest, g.body = .code (op :: rest) ∧ g1.body = .code rest ∧
        (op.ready s = true ∨ ∃ ch m, op = .send ch m ∧ (ch = .chRest ∨ ch = .chErr))) ∨
      (g.body.inLoop = true ∧ g1.body.inLoop = true))

/-- A page worker that has returned from `t.wgInner.Wait()`: only the
deferred `t.wgOuter.Done()` is left, or nothing. -/
def pastWait (b : Body) : Prop :=
  b = .code [Op.wgDone .wgOuter] ∨ b = .code []

/-- The function of a goroutine started by goroutine `i`, `none` for any
other goroutine. -/
def kidOf (i : Nat) (g : Goroutine) : Option Fn :=
  if g.parent = some i then some g.fn else none

/-- The functions of the goroutines that goroutine `i` has started, in the
order it started them. -/
def started (i : Nat) (gs : List Goroutine) : List Fn :=
  gs.filterMap (kidOf i)

/-- The function a `go` statement starts. -/
def Op.starts : Op → Option Fn
  | .goPull pno => some (.pull pno)
  | .goOuter node => some (.outer node)
  | .goAggregator => some .aggregator
  | _ => none

/-- The functions of the `go` statements a goroutine still has to run. -/
def pending : Body → List Fn
  | .code ops => ops.filterMap Op.starts
  | _ => []

/-- The code a function runs; the aggregation loop has none, it only
receives and appends. -/
def codeOf (w : World) (t : Crawler) : Fn → List Op
  | .Begin => Begin t
  | .pull pno => pull w t pno
  | .outer node => outer w t node
  | .aggregator => []

/-- The page number of a page worker function. -/
def Fn.page : Fn → Option Nat
  | .pull pno => some pno
  | _ => none

/-- The page numbers of the page workers of a state, in the order they were
started. -/
def pagesOf (gs : List Goroutine) : List Nat :=
  gs.filterMap (fun g => g.fn.page)

/-- The state after `Begin` has called `Add` and run the first `k` turns of
its loop: the page workers 0 to `k - 1` are started and have not moved. -/
def duringLoop (w : World) (t : Crawler) (k : Nat) : State :=
  { gs := ⟨.Begin, none,
        .code ((List.range' k (t.maxPages.toNat - k)).map Op.goPull ++
          [Op.wgWait .wgOuter])⟩ ::
      (List.range k).map (fun pno => ⟨.pull pno, some 0, .code (pull w t pno)⟩)
    wgOuter := t.maxPages, wgInner := 0, restaurants := [], errors := [], out := [],
    panicked := false }

/-- The state in which `Begin` has left its loop and is about to call
`t.wgOuter.Wait()`: one page worker per page number below `maxPages`. -/
def afterLoop (w : World) (t : Crawler) : State :=
  { gs := ⟨.Begin, none, .code [Op.wgWait .wgOuter]⟩ ::
      (List.range t.maxPages.toNat).map
        (fun pno => ⟨.pull pno, some 0, .code (pull w t pno)⟩)
    wgOuter := t.maxPages, wgInner := 0, restaurants := [], errors := [], out := [],
    panicked := false }

/-! ## Definitions used to state the properties -/

/-- The serving a serving block contributes: none when its price fails to parse. -/
def servingOf (s : SubItem) : Option Serving :=
  match Atoi (priceString s) with
  | .ok price => some ⟨TrimSpace s.subitemName, price⟩
  | .error _ => none

/-- The error a serving block makes `inner` send: none when its price parses. -/
def priceError (s : SubItem) : Option GoError :=
  match Atoi (priceString s) with
  | .ok _ => none
  | .error err => some err

/-- The meals `inner` appends for the items of one category, given the
servings `carry` already gathered in the `meal` variable of that category. -/
def mealsFrom (cat : String) : List Serving → List MenuItem → List Meal
  | _, [] => []
  | carry, i :: is =>
    let sv := carry ++ i.subitems.filterMap servingOf
    ⟨cat, TrimSpace i.nameText, i.small, sv⟩ :: mealsFrom cat sv is

/-- Every serving block of a document, in document order. -/
def Document.servingBlocks (doc : Document) : List SubItem :=
  doc.panes.flatMap (fun n => n.items.flatMap (fun i => i.subitems))

/-- The claimed menu: one meal per item, holding the servings of that item only. -/
def claimedMenu (doc : Document) : List Meal :=
  doc.panes.flatMap (fun n => n.items.map (fun i =>
    ⟨n.h4, TrimSpace i.nameText, i.small, i.subitems.filterMap servingOf⟩))

/-- White space separated tokens of a character list, the reading of the
price text the specification words: pieces between runs of white space, as
Go `strings.Fields`. -/
def tokensAux : List Char → List Char → List String
  | [], cur => if cur = [] then [] else [String.mk cur.reverse]
  | c :: cs, cur =>
    if isSpace c then
      if cur = [] then tokensAux cs [] else String.mk cur.reverse :: tokensAux cs []
    else tokensAux cs (c :: cur)

/-- The second white space separated token of a string, empty when there is none. -/
def secondToken (s : String) : String :=
  match tokensAux s.data [] with
  | _ :: p :: _ => p
  | _ => ""

/-! ## Concrete inputs -/

/-- A loaded configuration with three pages. -/
def sampleConf : Conf := ⟨"http://site", "karachi", 3⟩

/-- A crawler in collect mode over one page. -/
def onePage : Crawler :=
  { maxPages := 1, baseUrl := "http://site", city := "karachi",
    uri := "http://site/karachi/delivery", async := false,
    outItem := none, outErr := none, outDone := none }

/-- A serving block with a hidden price field. -/
def hiddenServing (kind price : String) : SubItem := ⟨kind, some price, ""⟩

/-- A detail document of 2 categories, 2 items each, 2 servings each, with
the prices 1 to 8 in document order. -/
def doc222 : Document :=
  { articles := []
    panes :=
      [⟨"Pizza",
          [⟨"Margherita", "", [hiddenServing "Small" "1", hiddenServing "Large" "2"]⟩,
           ⟨"Fajita", "", [hiddenServing "Small" "3", hiddenServing "Large" "4"]⟩]⟩,
       ⟨"Drinks",
          [⟨"Cola", "", [hiddenServing "Can" "5", hiddenServing "Bottle" "6"]⟩,
           ⟨"Water", "", [hiddenServing "Small" "7", hiddenServing "Large" "8"]⟩]⟩] }

/-- A world in which every fetch returns `doc222`. -/
def world222 : World :=
  { cnf := sampleConf, NewDocument := fun _ => .ok doc222, inhumanParse := fun _ => .ok 0 }

/-- A detail document with one item of three servings, the second of which
has a price that does not parse. -/
def docBadPrice : Document :=
  { articles := []
    panes :=
      [⟨"Pizza",
          [⟨"Margherita", "", [hiddenServing "Small" "100", hiddenServing "Medium" "n/a",
              ⟨"Large", none, "Rs. 300"⟩]⟩]⟩] }

/-- A world in which every fetch returns `docBadPrice`. -/
def worldBadPrice : World :=
  { cnf := sampleConf, NewDocument := fun _ => .ok docBadPrice, inhumanParse := fun _ => .ok 0 }

/-- A card with every field present. -/
def sampleCard : Card :=
  ⟨some "/img/kfc.png", some "/kfc", "KFC", some "4", "Fast Food", "45 min"⟩

/-- A document with one card as a listing page and one category of one
item as a detail page. -/
def docOneCard : Document :=
  { articles := [sampleCard]
    panes := [⟨"Burgers", [⟨"Zinger", "", [hiddenServing "Single" "350"]⟩]⟩] }

/-- A world in which every fetch returns `docOneCard`. -/
def worldOneCard : World :=
  { cnf := sampleConf, NewDocument := fun _ => .ok docOneCard, inhumanParse := fun _ => .ok 45 }

/-- A complete run of `Begin` over one page with one card: the page worker
starts the restaurant worker and the aggregation goroutine, the restaurant is
handed over and appended, and every `Wait` returns. -/
def movesOneCard : List Move :=
  [.step 0, .step 0, .step 1, .step 1, .step 1, .comm 2 3, .step 3, .step 3, .step 2,
    .step 1, .step 1, .step 0]

/-- The restaurant `outer` and `inner` build from `sampleCard` in `worldOneCard`. -/
def sampleRestaurant : Restaurant :=
  { ImgURL := "/img/kfc.png", URL := "/kfc", Title := "KFC", DeliveryTime := 45,
    Typ := "Fast Food", Rating := 4,
    Menu := [⟨"Burgers", "Zinger", "", [⟨"Single", 350⟩]⟩], Reviews := [] }

/-- The state at the end of `movesOneCard`. -/
def endOneCard : State :=
  { gs := [⟨.Begin, none, .code []⟩, ⟨.pull 0, some 0, .code []⟩,
      ⟨.outer sampleCard, some 1, .code []⟩, ⟨.aggregator, some 1, .receiving⟩]
    wgOuter := 0, wgInner := 0, restaurants := [sampleRestaurant], errors := [],
    out := [], panicked := false }

/-- The run of `Begin` over one page without cards. -/
def movesNoCard : List Move :=
  [.step 0, .step 0, .step 1, .step 1, .step 1, .step 1, .step 0]

/-- The state at the end of `movesNoCard`. -/
def endNoCard : State :=
  { gs := [⟨.Begin, none, .code []⟩, ⟨.pull 0, some 0, .code []⟩,
      ⟨.aggregator, some 1, .receiving⟩]
    wgOuter := 0, wgInner := 0, restaurants := [], errors := [], out := [],
    panicked := false }

/-- A world in which every fetch fails. -/
def worldDown : World :=
  { cnf := sampleConf, NewDocument := fun url => .error (.fetch url),
    inhumanParse := fun _ => .ok 0 }

/-- The state a run of `Begin` over one page is stuck in when the fetch of
the page fails: `Begin` is blocked in `t.wgOuter.Wait()` with the counter at
one, and the page worker is blocked in its send on `chErr`, which no
goroutine receives from. -/
def stuckDown : State :=
  { gs := [⟨.Begin, none, .code [Op.wgWait .wgOuter]⟩,
      ⟨.pull 0, some 0,
        .code [Op.send .chErr (.err (.fetch "http://site/karachi/delivery?&Search_PageNo=0"))]⟩]
    wgOuter := 1, wgInner := 0, restaurants := [], errors := [], out := [],
    panicked := false }

/-- A `Config` in stream mode, with the three channels of the caller. -/
def asyncConfig : Config :=
  { MaxPages := 1, BaseUrl := "http://site", City := "karachi", Async := true,
    OutItem := some 1, OutErr := some 2, OutDone := some 3 }

/-- The crawler `NewWithConfig` builds from `asyncConfig`. -/
def asyncCrawler : Crawler :=
  { onePage with async := true, outItem := some 1, outErr := some 2, outDone := some 3 }

/-- A world in which the listing page holds `sampleCard` and every other
fetch, so the fetch of the detail page, fails. -/
def worldNoDetail : World :=
  { cnf := sampleConf
    NewDocument := fun url =>
      if url = "http://site/karachi/delivery?&Search_PageNo=0" then .ok docOneCard
      else .error (.fetch url)
    inhumanParse := fun _ => .ok 45 }

/-- The summary of `sampleCard`: `sampleRestaurant` without its menu. -/
def sampleSummary : Restaurant :=
  { sampleRestaurant with Menu := [] }

/-- A complete run of `Begin` over one page with one card whose detail page
cannot be fetched: the error, then the restaurant, are handed over and appended. -/
def movesNoDetail : List Move :=
  [.step 0, .step 0, .step 1, .step 1, .step 1, .comm 2 3, .step 3, .step 3, .comm 2 3,
    .step 3, .step 3, .step 2, .step 1, .step 1, .step 0]

/-- The state at the end of `movesNoDetail`. -/
def endNoDetail : State :=
  { gs := [⟨.Begin, none, .code []⟩, ⟨.pull 0, some 0, .code []⟩,
      ⟨.outer sampleCard, some 1, .code []⟩, ⟨.aggregator, some 1, .receiving⟩]
    wgOuter := 0, wgInner := 0, restaurants := [sampleSummary],
    errors := [.fetch "http://site/kfc"], out := [], panicked := false }

/-- A run of `Begin` over the same page in which `Begin` returns as soon as
the restaurant has been handed over, before the aggregation goroutine has
appended it. -/
def movesEarly : List Move :=
  [.step 0, .step 0, .step 1, .step 1, .step 1, .comm 2 3, .step 3, .step 3, .comm 2 3,
    .step 2, .step 1, .step 1, .step 0]

/-- The state at the end of `movesEarly`: `Begin` has returned, `t.restaurants`
is empty and the aggregation goroutine still holds the restaurant. -/
def endEarly : State :=
  { gs := [⟨.Begin, none, .code []⟩, ⟨.pull 0, some 0, .code []⟩,
      ⟨.outer sampleCard, some 1, .code []⟩,
      ⟨.aggregator, some 1, .holding (.item sampleSummary)⟩]
    wgOuter := 0, wgInner := 0, restaurants := [],
    errors := [.fetch "http://site/kfc"], out := [], panicked := false }

/-- A second card. -/
def otherCard : Card :=
  ⟨some "/img/mcd.png", some "/mcd", "McDonalds", some "5", "Burgers", "30 min"⟩

/-- The summary of `otherCard`. -/
def otherSummary : Restaurant :=
  { ImgURL := "/img/mcd.png", URL := "/mcd", Title := "McDonalds", DeliveryTime := 45,
    Typ := "Burgers", Rating := 5, Menu := [], Reviews := [] }

/-- A world with two listing pages, `sampleCard` on page 0 and `otherCard`
on page 1, in which every other fetch, so the fetch of a detail page, fails. -/
def worldTwoCards : World :=
  { cnf := sampleConf
    NewDocument := fun url =>
      if url = "http://site/karachi/delivery?&Search_PageNo=0" then .ok ⟨[sampleCard], []⟩
      else if url = "http://site/karachi/delivery?&Search_PageNo=1" then .ok ⟨[otherCard], []⟩
      else .error (.fetch url)
    inhumanParse := fun _ => .ok 45 }

/-- The goroutines at the end of a complete run of `Begin` over the two
pages of `worldTwoCards`: every goroutine has finished and the two aggregation
goroutines are back in their `select`. -/
def gsTwoCards : List Goroutine :=
  [⟨.Begin, none, .code []⟩, ⟨.pull 0, some 0, .code []⟩, ⟨.pull 1, some 0, .code []⟩,
    ⟨.outer sampleCard, some 1, .code []⟩, ⟨.aggregator, some 1, .receiving⟩,
    ⟨.outer otherCard, some 2, .code []⟩, ⟨.aggregator, some 2, .receiving⟩]

/-- A complete run of `Begin` over the two pages of `worldTwoCards` in which
the two aggregation goroutines each receive a restaurant, both read
`t.restaurants` while it is empty, and both assign: the second assignment
overwrites the first. -/
def movesLost : List Move :=
  [.step 0, .step 0, .step 0, .step 1, .step 1, .step 1, .step 2, .step 2, .step 2,
    .comm 3 4, .step 4, .step 4, .comm 5 6, .step 6, .step 6,
    .comm 3 4, .comm 5 6, .step 4, .step 6, .step 4, .step 6,
    .step 3, .step 5, .step 1, .step 1, .step 2, .step 2, .step 0]

/-- The state at the end of `movesLost`: `Begin` has returned, every goroutine
has finished, and `t.restaurants` holds the second restaurant only. -/
def endLost : State :=
  { gs := gsTwoCards, wgOuter := 0, wgInner := 0, restaurants := [otherSummary],
    errors := [.fetch "http://site/kfc", .fetch "http://site/mcd"], out := [],
    panicked := false }

/-- A complete run of `Begin` over the two pages of `worldTwoCards` in which
the two aggregation goroutines each receive an error, both read `t.errors`
while it is empty, and both assign. -/
def movesErrLost : List Move :=
  [.step 0, .step 0, .step 0, .step 1, .step 1, .step 1, .step 2, .step 2, .step 2,
    .comm 3 4, .comm 5 6, .step 4, .step 6, .step 4, .step 6,
    .comm 3 4, .step 4, .step 4, .comm 5 6, .step 6, .step 6,
    .step 3, .step 5, .step 1, .step 1, .step 2, .step 2, .step 0]

/-- The state at the end of `movesErrLost`: `t.errors` holds the second error only. -/
def endErrLost : State :=
  { gs := gsTwoCards, wgOuter := 0, wgInner := 0,
    restaurants := [sampleSummary, otherSummary],
    errors := [.fetch "http://site/mcd"], out := [], panicked := false }

/-- A `Config` in collect mode that leaves `MaxPages` at zero. -/
def zeroPagesConfig : Config :=
  { MaxPages := 0, BaseUrl := "http://site", City := "karachi", Async := false,
    OutItem := none, OutErr := none, OutDone := none }

/-- The crawler `NewWithConfig` builds from `zeroPagesConfig` when the loaded
configuration is `sampleConf`, which has three pages. -/
def threePages : Crawler :=
  { onePage with maxPages := 3 }

/-- A crawler over two pages. -/
def twoPages : Crawler :=
  { onePage with maxPages := 2 }

/-- A crawler over no page. -/
def noPages : Crawler :=
  { onePage with maxPages := 0 }

/-- A world in which every page is fetched and is empty. -/
def worldEmpty : World :=
  { cnf := sampleConf, NewDocument := fun _ => .ok ⟨[], []⟩, inhumanParse := fun _ => .ok 0 }

/-- A complete run of `Begin` over two empty pages. -/
def movesTwoPages : List Move :=
  [.step 0, .step 0, .step 0, .step 1, .step 1, .step 2, .step 2, .step 1, .step 1, .step 2,
    .step 2, .step 0]

end Hungrilla

namespace Hungrilla

/-! ## The constructor -/

/-- The constructor in closed form: the panic, or the crawler with each
zero field of the `Config` replaced by the loaded configuration. -/
theorem NewWithConfig_eq (cnf : Conf) (c : Config) :
    NewWithConfig cnf c =
      if c.Async = true ∧ (c.OutItem = none ∨ c.OutDone = none ∨ c.OutErr = none) then
        .error "channels should be provided when running in async mode"
      else
        .ok { maxPages := if c.MaxPages ≠ 0 then c.MaxPages else cnf.MaxPages
              baseUrl := if c.BaseUrl ≠ "" then c.BaseUrl else cnf.BaseURL
              city := if c.City ≠ "" then c.City else cnf.City
              uri := (if c.BaseUrl ≠ "" then c.BaseUrl else cnf.BaseURL) ++ "/" ++
                (if c.City ≠ "" then c.City else cnf.City) ++ "/delivery"
              async := c.Async
              outItem := if c.Async then c.OutItem else none
              outErr := if c.Async then c.OutErr else none
              outDone := if c.Async then c.OutDone else none } := by
  unfold NewWithConfig
  by_cases ha : c.Async = true <;>
  by_cases hc : c.OutItem = none ∨ c.OutDone = none ∨ c.OutErr = none <;>
  by_cases h1 : c.MaxPages = 0 <;>
  by_cases h2 : c.BaseUrl = "" <;>
  by_cases h3 : c.City = "" <;>
  simp [ha, hc, h1, h2, h3, bind, Except.bind, pure, Except.pure, throw, throwThe,
    MonadExceptOf.throw, Crawler.zero]

/-- C1: `NewWithConfig` panics exactly when `Async` is set and one of the
three channels is nil, and returns a crawler exactly in every other case; a
panic leaves no crawler on which `Begin` could run. -/
theorem NewWithConfig_panics_iff (cnf : Conf) (c : Config) :
    ((∃ msg, NewWithConfig cnf c = .error msg) ↔
      (c.Async = true ∧ (c.OutItem = none ∨ c.OutErr = none ∨ c.OutDone = none))) ∧
    ((∃ t, NewWithConfig cnf c = .ok t ∧ t.async = c.Async) ↔
      ¬ (c.Async = true ∧ (c.OutItem = none ∨ c.OutErr = none ∨ c.OutDone = none))) := by
  rw [NewWithConfig_eq]
  by_cases h : c.Async = true ∧ (c.OutItem = none ∨ c.OutDone = none ∨ c.OutErr = none)
  · have h2 : c.Async = true ∧ (c.OutItem = none ∨ c.OutErr = none ∨ c.OutDone = none) := by
      tauto
    rw [if_pos h]
    simp [h2]
  · have h2 : ¬ (c.Async = true ∧ (c.OutItem = none ∨ c.OutErr = none ∨ c.OutDone = none)) := by
      tauto
    rw [if_neg h]
    simp [h2]

/-! ## The detail extractor -/

/-- The serving loop of one item appends the servings that parse, in order,
and sends the errors of those that do not, in order. -/
theorem foldl_servingStep (subs : List SubItem) (m : Meal) (errs : List GoError) :
    subs.foldl servingStep (m, errs) =
      ({ m with Servings := m.Servings ++ subs.filterMap servingOf },
        errs ++ subs.filterMap priceError) := by
  induction subs generalizing m errs with
  | nil => simp
  | cons s subs ih =>
    rw [List.foldl_cons]
    cases h : Atoi (priceString s) with
    | error e =>
      have hs : servingStep (m, errs) s = (m, errs ++ [e]) := by simp [servingStep, h]
      rw [hs, ih]
      simp [servingOf, priceError, h, List.filterMap_cons]
    | ok v =>
      have hs : servingStep (m, errs) s =
          ({ m with Servings := m.Servings ++ [⟨TrimSpace s.subitemName, v⟩] }, errs) := by
        simp [servingStep, h]
      rw [hs, ih]
      simp [servingOf, priceError, h, List.filterMap_cons]

/-- The item closure in closed form. -/
theorem itemStep_eq (st : InnerState) (i : MenuItem) :
    itemStep st i =
      { r := { st.r with Menu := st.r.Menu ++
                [⟨st.meal.Typ, TrimSpace i.nameText, i.small,
                  st.meal.Servings ++ i.subitems.filterMap servingOf⟩] }
        meal := ⟨st.meal.Typ, TrimSpace i.nameText, i.small,
                  st.meal.Servings ++ i.subitems.filterMap servingOf⟩
        sent := st.sent ++ i.subitems.filterMap priceError } := by
  simp [itemStep, foldl_servingStep]

/-- The item loop of one category in closed form. -/
theorem foldl_itemStep (items : List MenuItem) (st : InnerState) :
    items.foldl itemStep st =
      { r := { st.r with Menu := st.r.Menu ++ mealsFrom st.meal.Typ st.meal.Servings items }
        meal := (items.foldl itemStep st).meal
        sent := st.sent ++ (items.flatMap (fun i => i.subitems)).filterMap priceError } := by
  induction items generalizing st with
  | nil => simp [mealsFrom]
  | cons i items ih =>
    rw [List.foldl_cons, ih, itemStep_eq]
    simp [mealsFrom, List.flatMap_cons, List.filterMap_append, List.append_assoc]

/-- The category loop in closed form. -/
theorem foldl_paneStep (panes : List TabPane) (r : Restaurant) (errs : List GoError) :
    panes.foldl paneStep (r, errs) =
      ({ r with Menu := r.Menu ++ panes.flatMap (fun n => mealsFrom n.h4 [] n.items) },
        errs ++ (panes.flatMap (fun n => n.items.flatMap (fun i => i.subitems))).filterMap
          priceError) := by
  induction panes generalizing r errs with
  | nil => simp
  | cons n panes ih =>
    have hs : paneStep (r, errs) n =
        ({ r with Menu := r.Menu ++ mealsFrom n.h4 [] n.items },
          errs ++ (n.items.flatMap (fun i => i.subitems)).filterMap priceError) := by
      simp only [paneStep]
      rw [foldl_itemStep]
      simp [Meal.zero]
    rw [List.foldl_cons, hs, ih]
    simp [List.flatMap_cons, List.filterMap_append, List.append_assoc]

/-- What `inner` returns and sends when the detail page is fetched. -/
theorem inner_ok (w : World) (t : Crawler) (r : Restaurant) (doc : Document)
    (hfetch : w.NewDocument (t.baseUrl ++ r.URL) = .ok doc) :
    inner w t r =
      ({ r with Menu := r.Menu ++ doc.panes.flatMap (fun n => mealsFrom n.h4 [] n.items) },
        doc.servingBlocks.filterMap priceError) := by
  simp [inner, hfetch, foldl_paneStep, Document.servingBlocks]

/-- What `inner` returns and sends when the fetch of the detail page fails. -/
theorem inner_error (w : World) (t : Crawler) (r : Restaurant) (err : GoError)
    (hfetch : w.NewDocument (t.baseUrl ++ r.URL) = .error err) :
    inner w t r = (r, [err]) := by
  simp [inner, hfetch]

/-- The meal `inner` appends for the item at position `k` of a category:
its servings are those gathered from the earlier items of the category,
followed by the servings of the item itself that parse, in order. -/
theorem mealsFrom_getElem (cat : String) (items : List MenuItem) (carry : List Serving)
    (k : Nat) (i : MenuItem) (hi : items[k]? = some i) :
    (mealsFrom cat carry items)[k]? =
      some ⟨cat, TrimSpace i.nameText, i.small,
        carry ++ ((items.take k).flatMap (fun j => j.subitems)).filterMap servingOf ++
          i.subitems.filterMap servingOf⟩ := by
  induction items generalizing carry k with
  | nil => simp at hi
  | cons j items ih =>
    cases k with
    | zero =>
      simp at hi
      simp [mealsFrom, hi]
    | succ k =>
      simp at hi
      simp [mealsFrom, ih _ k hi, List.flatMap_cons, List.filterMap_append, List.append_assoc]

/-- A serving block gives a serving or an error, never both and never neither. -/
theorem servingOf_or_priceError (s : SubItem) :
    (∃ e, Atoi (priceString s) = .error e ∧ servingOf s = none ∧ priceError s = some e) ∨
    (∃ v, Atoi (priceString s) = .ok v ∧
      servingOf s = some ⟨TrimSpace s.subitemName, v⟩ ∧ priceError s = none) := by
  cases h : Atoi (priceString s) with
  | error e => left; exact ⟨e, rfl, by simp [servingOf, h], by simp [priceError, h]⟩
  | ok v => right; exact ⟨v, rfl, by simp [servingOf, h], by simp [priceError, h]⟩

/-- C8: when the detail page is fetched, `inner` returns the restaurant with
one meal appended per item; the meal of an item ends with the servings of
that item whose price parses, in document order, a serving whose price does
not parse being left out; and the errors sent are, in order, one for each
serving block whose price does not parse. -/
theorem inner_skips_unparsed_serving (w : World) (t : Crawler) (r : Restaurant)
    (doc : Document) (hfetch : w.NewDocument (t.baseUrl ++ r.URL) = .ok doc) :
    (inner w t r).1 =
        { r with Menu := r.Menu ++ doc.panes.flatMap (fun n => mealsFrom n.h4 [] n.items) } ∧
    (inner w t r).2 = doc.servingBlocks.filterMap priceError ∧
    (∀ (n : TabPane) (k : Nat) (i : MenuItem), n.items[k]? = some i →
      (mealsFrom n.h4 [] n.items)[k]? =
        some ⟨n.h4, TrimSpace i.nameText, i.small,
          ((n.items.take k).flatMap (fun j => j.subitems)).filterMap servingOf ++
            i.subitems.filterMap servingOf⟩) ∧
    (∀ s : SubItem,
      (∃ e, Atoi (priceString s) = .error e ∧ servingOf s = none ∧ priceError s = some e) ∨
      (∃ v, Atoi (priceString s) = .ok v ∧
        servingOf s = some ⟨TrimSpace s.subitemName, v⟩ ∧ priceError s = none)) := by
  refine ⟨?_, ?_, ?_, servingOf_or_priceError⟩
  · rw [inner_ok w t r doc hfetch]
  · rw [inner_ok w t r doc hfetch]
  · intro n k i hi
    have h := mealsFrom_getElem n.h4 n.items [] k i hi
    simpa using h

/-- Witness for C8: a document whose second serving has the price `n/a`. -/
theorem inner_skips_unparsed_serving_witness :
    (inner worldBadPrice onePage Restaurant.zero).1.Menu =
        [⟨"Pizza", "Margherita", "", [⟨"Small", 100⟩, ⟨"Large", 300⟩]⟩] ∧
    (inner worldBadPrice onePage Restaurant.zero).2 = [.num "Atoi" "n/a" .syntaxErr] := by
  have h := inner_skips_unparsed_serving worldBadPrice onePage Restaurant.zero docBadPrice rfl
  rw [h.1, h.2.1]
  decide

/-- C7, the code at the document of 2 categories, 2 items and 2 servings:
the menu holds 12 servings, not 8, because the second meal of each category
repeats the servings of the first. -/
theorem inner_repeats_earlier_servings :
    (inner world222 onePage Restaurant.zero).1.Menu.map
        (fun m => (m.Name, m.Servings.map (fun s => s.Price))) =
      [("Margherita", [1, 2]), ("Fajita", [1, 2, 3, 4]), ("Cola", [5, 6]),
        ("Water", [5, 6, 7, 8])] ∧
    ((inner world222 onePage Restaurant.zero).1.Menu.flatMap (fun m => m.Servings)).length
      = 12 ∧
    (inner world222 onePage Restaurant.zero).2 = [] ∧
    (claimedMenu doc222).map (fun m => (m.Name, m.Servings.map (fun s => s.Price))) =
      [("Margherita", [1, 2]), ("Fajita", [3, 4]), ("Cola", [5, 6]), ("Water", [7, 8])] := by
  decide

/-! ## The price string -/

/-- Splitting a list without the separator gives one piece. -/
theorem splitAux_no_sep (sep : Char) (a cur : List Char) (ha : sep ∉ a) :
    splitAux sep a cur = [String.mk (cur.reverse ++ a)] := by
  induction a generalizing cur with
  | nil => simp [splitAux]
  | cons c a ih =>
    have hc : c ≠ sep := fun h => ha (by simp [h])
    have ha2 : sep ∉ a := fun h => ha (by simp [h])
    simp [splitAux, hc, ih _ ha2]

/-- Splitting reads up to the first separator, then starts a new piece. -/
theorem splitAux_sep (sep : Char) (a rest cur : List Char) (ha : sep ∉ a) :
    splitAux sep (a ++ sep :: rest) cur =
      String.mk (cur.reverse ++ a) :: splitAux sep rest [] := by
  induction a generalizing cur with
  | nil => simp [splitAux]
  | cons c a ih =>
    have hc : c ≠ sep := fun h => ha (by simp [h])
    have ha2 : sep ∉ a := fun h => ha (by simp [h])
    simp [splitAux, hc, ih _ ha2]

/-- C10, amended: the price string is the value of the hidden field when
there is one; otherwise it is the second piece of the trimmed visible text
split at every single space character: the text between the first space and
the next one (or the end), which is empty when two spaces are adjacent, and
the empty string when the trimmed text has no space. -/
theorem priceString_spec (s : SubItem) :
    (∀ p, s.itemPrice = some p → priceString s = p) ∧
    (s.itemPrice = none →
      (∀ a b rest : List Char, ' ' ∉ a → ' ' ∉ b →
        (TrimSpace s.priceSpan).data = a ++ ' ' :: (b ++ rest) →
        (rest = [] ∨ rest.head? = some ' ') → priceString s = String.mk b) ∧
      (' ' ∉ (TrimSpace s.priceSpan).data → priceString s = "")) := by
  refine ⟨?_, ?_⟩
  · intro p hp
    simp [priceString, hp]
  · intro hnone
    refine ⟨?_, ?_⟩
    · intro a b rest ha hb htrim hrest
      have h1 : SplitSpace (TrimSpace s.priceSpan) =
          String.mk a :: splitAux ' ' (b ++ rest) [] := by
        unfold SplitSpace
        rw [htrim, splitAux_sep ' ' a (b ++ rest) [] ha]
        simp
      have h2 : ∃ tl, splitAux ' ' (b ++ rest) [] = String.mk b :: tl := by
        rcases hrest with hr | hr
        · subst hr
          refine ⟨[], ?_⟩
          rw [List.append_nil, splitAux_no_sep ' ' b [] hb]
          simp
        · cases rest with
          | nil => simp at hr
          | cons c rest =>
            simp at hr
            subst hr
            refine ⟨splitAux ' ' rest [], ?_⟩
            rw [splitAux_sep ' ' b rest [] hb]
            simp
      obtain ⟨tl, h2⟩ := h2
      simp [priceString, hnone, h1, h2]
    · intro hno
      have h1 : SplitSpace (TrimSpace s.priceSpan) = [TrimSpace s.priceSpan] := by
        unfold SplitSpace
        rw [splitAux_no_sep ' ' _ [] hno]
        simp
      simp [priceString, hnone, h1]

/-- Witness for C10, amended: with one space between the tokens the second
token is parsed; with two spaces the parsed string is empty. -/
theorem priceString_spec_witness :
    priceString ⟨"Large", none, " Rs. 250 "⟩ = "250" ∧
    priceString ⟨"Large", none, "Rs.  250"⟩ = "" := by
  refine ⟨?_, ?_⟩
  · exact ((priceString_spec ⟨"Large", none, " Rs. 250 "⟩).2 rfl).1
      ['R', 's', '.'] ['2', '5', '0'] [] (by decide) (by decide) (by decide) (Or.inl rfl)
  · exact ((priceString_spec ⟨"Large", none, "Rs.  250"⟩).2 rfl).1
      ['R', 's', '.'] [] [' ', '2', '5', '0'] (by decide) (by decide) (by decide)
      (Or.inr rfl)

/-- C10 as stated fails: with two spaces, or a tab, between `Rs.` and the
number the second white space separated token is `250`, while the string
the code parses is empty, and the serving is dropped with an error. -/
theorem priceString_two_spaces :
    secondToken "Rs.  250" = "250" ∧
    priceString ⟨"Large", none, "Rs.  250"⟩ = "" ∧
    secondToken "Rs.\t250" = "250" ∧
    priceString ⟨"Large", none, "Rs.\t250"⟩ = "" ∧
    servingOf ⟨"Large", none, "Rs.  250"⟩ = none ∧
    priceError ⟨"Large", none, "Rs.  250"⟩ = some (.num "Atoi" "" .syntaxErr) := by
  decide

/-! ## The interleaving semantics: moves and reachable states -/

/-- Every successful move is one of the four kinds of step. -/
theorem exec_step {w : World} {t : Crawler} {s s1 : State} {mv : Move}
    (h : exec w t s mv = some s1) : s.panicked = false ∧ Step w t s mv s1 := by
  cases mv with
  | step i =>
    simp only [exec] at h
    by_cases hp : s.panicked = true
    · simp [hp] at h
    · rw [if_neg hp] at h
      simp at hp
      refine ⟨hp, ?_⟩
      cases hg : s.gs[i]? with
      | none => simp [hg] at h
      | some g =>
        simp only [hg] at h
        cases hb : g.body with
        | code ops =>
          cases ops with
          | nil => simp [hb] at h
          | cons op rest =>
            simp only [hb] at h
            by_cases hr : op.ready s = true
            · simp only [hr, if_true] at h
              by_cases hn : s.wgOuter + op.delta .wgOuter < 0 ∨ s.wgInner + op.delta .wgInner < 0
              · rw [if_pos hn] at h
                cases h
                exact Step.panic s i g op rest hg hb hr hn
              · rw [if_neg hn] at h
                cases h
                exact Step.op s i g op rest hg hb hr hn
            · simp [hr] at h
        | receiving => simp [hb] at h
        | holding m =>
          simp only [hb] at h
          cases h
          exact Step.load s i g m hg hb
        | storing v =>
          simp only [hb] at h
          cases h
          exact Step.store s i g v hg hb
  | comm i j =>
    simp only [exec] at h
    by_cases hp : s.panicked = true
    · simp [hp] at h
    · rw [if_neg hp] at h
      simp at hp
      refine ⟨hp, ?_⟩
      cases hg : s.gs[i]? with
      | none => simp [hg] at h
      | some g =>
        cases ha : s.gs[j]? with
        | none => simp [hg, ha] at h
        | some a =>
          simp only [hg, ha] at h
          cases hb : g.body with
          | code ops =>
            cases ops with
            | nil => simp [hb] at h
            | cons op rest =>
              cases op with
              | send ch m =>
                cases hr : a.body with
                | receiving =>
                  simp only [hb, hr] at h
                  by_cases hch : ch = .chRest ∨ ch = .chErr
                  · rw [if_pos hch] at h
                    cases h
                    exact Step.comm s i j g a ch m rest hg ha hb hr hch
                  · rw [if_neg hch] at h
                    cases h
                | code _ => simp [hb, hr] at h
                | holding _ => simp [hb, hr] at h
                | storing _ => simp [hb, hr] at h
              | _ => simp [hb] at h
          | receiving => simp [hb] at h
          | holding m => simp [hb] at h
          | storing v => simp [hb] at h

/-- A run extended by one move. -/
theorem run_append (w : World) (t : Crawler) (ms : List Move) (m : Move) (s : State) :
    run w t s (ms ++ [m]) = (run w t s ms).bind (fun s1 => exec w t s1 m) := by
  induction ms generalizing s with
  | nil =>
    simp only [List.nil_append, run, Option.bind]
    cases exec w t s m <;> rfl
  | cons m1 ms ih =>
    simp only [List.cons_append, run]
    cases exec w t s m1 with
    | none => simp
    | some s1 => simp [ih]

/-- Induction over the reachable states: a property of the initial state
that every step from a reachable state keeps holds in every reachable state. -/
theorem Reachable.induction {w : World} {t : Crawler} (P : State → Prop)
    (h0 : P (init t))
    (hstep : ∀ s mv s1, Reachable w t s → P s → Step w t s mv s1 → P s1) :
    ∀ s, Reachable w t s → P s := by
  intro s ⟨ms, hms⟩
  induction ms using List.reverseRecOn generalizing s with
  | nil =>
    simp [run] at hms
    subst hms
    exact h0
  | append_singleton ms m ih =>
    rw [run_append] at hms
    cases hr : run w t (init t) ms with
    | none => simp [hr] at hms
    | some s0 =>
      simp [hr] at hms
      exact hstep s0 m s ⟨ms, hr⟩ (ih s0 hr) (exec_step hms).2

/-! ## Goroutines stay well formed -/

/-- What an aggregation goroutine turns to after reading the slice is
still in its loop. -/
theorem load_inLoop (s : State) (m : Msg) : (s.load m).inLoop = true := by
  cases m <;> rfl

/-- A property of single goroutines that holds of the caller of `Begin`,
of every goroutine as it is started, and is kept when a goroutine moves on,
holds of every goroutine of every reachable state. -/
theorem Reachable.forall_goroutine {w : World} {t : Crawler} (P : Goroutine → Prop)
    (h0 : P ⟨.Begin, none, .code (Begin t)⟩)
    (hnext : ∀ g op rest, P g → g.body = .code (op :: rest) → P (g.withBody (.code rest)))
    (hspawn : ∀ g op rest i, P g → g.body = .code (op :: rest) →
      ∀ c ∈ op.spawned w t i, P c)
    (hloop : ∀ g b, P g → g.body.inLoop = true → b.inLoop = true → P (g.withBody b)) :
    ∀ s, Reachable w t s → ∀ g ∈ s.gs, P g := by
  apply Reachable.induction
  · intro g hg
    simp [init] at hg
    subst hg
    exact h0
  · intro s mv s1 _ ih hstep
    have hmem : ∀ i g, s.gs[i]? = some g → P g := fun i g hg =>
      ih g (List.mem_iff_getElem?.2 ⟨i, hg⟩)
    cases hstep with
    | panic i g op rest hg hb hready hneg => exact ih
    | op i g op rest hg hb hready hpos =>
      intro c hc
      simp only [List.mem_append] at hc
      rcases hc with hc | hc
      · rcases List.mem_or_eq_of_mem_set hc with hc | hc
        · exact ih c hc
        · subst hc
          exact hnext g op rest (hmem i g hg) hb
      · exact hspawn g op rest i (hmem i g hg) hb c hc
    | load i g m hg hb =>
      intro c hc
      rcases List.mem_or_eq_of_mem_set hc with hc | hc
      · exact ih c hc
      · subst hc
        exact hloop g _ (hmem i g hg) (by rw [hb]; rfl) (load_inLoop s m)
    | store i g v hg hb =>
      intro c hc
      rcases List.mem_or_eq_of_mem_set hc with hc | hc
      · exact ih c hc
      · subst hc
        exact hloop g _ (hmem i g hg) (by rw [hb]; rfl) rfl
    | comm i j g a ch m rest hg ha hb hr hch =>
      intro c hc
      simp only [State.setBody] at hc
      rcases List.mem_or_eq_of_mem_set hc with hc | hc
      · rcases List.mem_or_eq_of_mem_set hc with hc | hc
        · exact ih c hc
        · subst hc
          exact hnext g _ rest (hmem i g hg) hb
      · subst hc
        exact hloop a _ (hmem j a ha) (by rw [hr]; rfl) rfl

/-- Every goroutine of a reachable state is well formed. -/
theorem Reachable.wf {w : World} {t : Crawler} {s : State} (hs : Reachable w t s) :
    ∀ g ∈ s.gs, WF w t g := by
  refine Reachable.forall_goroutine (WF w t) ?_ ?_ ?_ ?_ s hs
  · simp [WF, List.suffix_refl]
  · intro g op rest hg hb
    cases g with
    | mk fn parent body =>
      simp only at hb
      subst hb
      cases fn <;> simp only [WF, Goroutine.withBody] at hg ⊢
      · exact (List.suffix_cons op rest).trans hg
      · exact (List.suffix_cons op rest).trans hg
      · exact (List.suffix_cons op rest).trans hg
  · intro g op rest i _ _ c hc
    cases op <;> simp [Op.spawned] at hc <;> subst hc <;> simp [WF, List.suffix_refl]
  · intro g b hg hb hb1
    cases g with
    | mk fn parent body =>
      cases body <;> cases b <;> cases fn <;>
        simp_all [WF, Goroutine.withBody, Body.inLoop]

/-- A well formed goroutine in the aggregation loop is an aggregation goroutine. -/
theorem WF.aggregator_of_inLoop {w : World} {t : Crawler} {g : Goroutine} (h : WF w t g)
    (hb : g.body.inLoop = true) : g.fn = .aggregator := by
  cases g with
  | mk fn parent body =>
    cases body <;> cases fn <;> simp_all [WF, Body.inLoop]

/-! ## Wait group counters as potentials -/

theorem total_append (wt : Op → Int) (l1 l2 : List Goroutine) :
    total wt (l1 ++ l2) = total wt l1 + total wt l2 := by
  simp [total]

theorem total_set (wt : Op → Int) (gs : List Goroutine) (i : Nat) (g g1 : Goroutine)
    (hg : gs[i]? = some g) :
    total wt (gs.set i g1) = total wt gs - g.body.wt wt + g1.body.wt wt := by
  induction gs generalizing i with
  | nil => simp at hg
  | cons x gs ih =>
    cases i with
    | zero =>
      simp at hg
      subst hg
      simp only [total, List.set_cons_zero, List.map_cons, List.sum_cons]
      ring
    | succ i =>
      simp at hg
      have h := ih i hg
      simp only [total, List.set_cons_succ, List.map_cons, List.sum_cons] at h ⊢
      rw [h]
      ring

theorem opsWt_cons (wt : Op → Int) (op : Op) (rest : List Op) :
    opsWt wt (op :: rest) = wt op + opsWt wt rest := by
  simp [opsWt]

theorem opsWt_append (wt : Op → Int) (l1 l2 : List Op) :
    opsWt wt (l1 ++ l2) = opsWt wt l1 + opsWt wt l2 := by
  simp [opsWt]

/-- A weight that accounts for every change of a counter, operation by
operation, gives the counter as the difference of two totals. -/
theorem Reachable.counter_eq {w : World} {t : Crawler} (wt : Op → Int) (wg : WG)
    (hwt : ∀ i op, op.delta wg = total wt (op.spawned w t i) - wt op) :
    ∀ s, Reachable w t s → s.counter wg = total wt s.gs - total wt (init t).gs := by
  apply Reachable.induction
  · cases wg <;> simp [State.counter, init]
  · intro s mv s1 _ ih hstep
    cases hstep with
    | panic i g op rest hg hb hready hneg =>
      cases wg <;> simpa [State.counter] using ih
    | op i g op rest hg hb hready hpos =>
      have h1 := total_set wt s.gs i g (g.withBody (.code rest)) hg
      have h2 := hwt i op
      have h3 : (g.withBody (.code rest)).body.wt wt = g.body.wt wt - wt op := by
        simp [Goroutine.withBody, hb, Body.wt, opsWt_cons]
      cases wg <;> simp only [State.counter] at ih ⊢ <;>
        rw [total_append, h1, h3, ih] <;> rw [h2] <;> ring
    | load i g m hg hb =>
      have h1 := total_set wt s.gs i g (g.withBody (s.load m)) hg
      have h3 : (g.withBody (s.load m)).body.wt wt = g.body.wt wt := by
        cases m <;> simp [Goroutine.withBody, hb, Body.wt, State.load]
      cases wg <;> simp only [State.counter, State.setBody] at ih ⊢ <;>
        rw [h1, h3, ih] <;> ring
    | store i g v hg hb =>
      have h1 := total_set wt s.gs i g (g.withBody .receiving) hg
      have h3 : (g.withBody .receiving).body.wt wt = g.body.wt wt := by
        simp [Goroutine.withBody, hb, Body.wt]
      cases wg <;> simp only [State.counter, State.store, State.setBody] at ih ⊢ <;>
        rw [h1, h3, ih] <;> ring
    | comm i j g a ch m rest hg ha hb hr hch =>
      have h1 := total_set wt s.gs i g (g.withBody (.code rest)) hg
      have h2 := hwt i (.send ch m)
      have h3 : (g.withBody (.code rest)).body.wt wt = g.body.wt wt := by
        simp [Op.delta, Op.spawned, total] at h2
        have h2b : wt (.send ch m) = 0 := by linarith
        simp [Goroutine.withBody, hb, Body.wt, opsWt_cons, h2b]
      have hij : i ≠ j := by
        intro hij
        subst hij
        rw [hg] at ha
        cases ha
        rw [hb] at hr
        cases hr
      have ha2 : (s.gs.set i (g.withBody (.code rest)))[j]? = some a := by
        rw [List.getElem?_set_ne hij]
        exact ha
      have h4 := total_set wt _ j a (a.withBody (.holding m)) ha2
      have h5 : (a.withBody (.holding m)).body.wt wt = a.body.wt wt := by
        simp [Goroutine.withBody, hr, Body.wt]
      cases wg <;> simp only [State.counter, State.setBody] at ih ⊢ <;>
        rw [h4, h5, h1, h3, ih] <;> ring

/-! ## The code of each goroutine -/

/-- The code of a page worker whose fetch succeeds. -/
theorem pull_ok {w : World} {t : Crawler} {pno : Nat} {doc : Document}
    (h : w.NewDocument (pageUrl t pno) = .ok doc) :
    pull w t pno =
      Op.wgAdd .wgInner doc.articles.length ::
        (doc.articles.map Op.goOuter ++
          [Op.goAggregator, Op.wgWait .wgInner, Op.wgDone .wgOuter]) := by
  simp [pull, h]

/-- The code of a page worker whose fetch fails. -/
theorem pull_error {w : World} {t : Crawler} {pno : Nat} {err : GoError}
    (h : w.NewDocument (pageUrl t pno) = .error err) :
    pull w t pno = [Op.send .chErr (.err err)] := by
  simp [pull, h]

/-- The code of a restaurant worker: sends on `chErr` and `chRest`, then
`wgInner.Done()`. -/
theorem outer_shape (w : World) (t : Crawler) (n : Card) :
    ∃ sends, outer w t n = sends ++ [Op.wgDone .wgInner] ∧
      ∀ op ∈ sends, ∃ ch m, op = Op.send ch m ∧ (ch = .chRest ∨ ch = .chErr) := by
  unfold outer
  cases summary w n with
  | error err => exact ⟨_, rfl, by simp⟩
  | ok r =>
    refine ⟨_, rfl, ?_⟩
    intro op hop
    simp only [List.mem_append, List.mem_map, List.mem_singleton] at hop
    rcases hop with ⟨e, _, he⟩ | he
    · exact ⟨_, _, he.symm, Or.inr rfl⟩
    · exact ⟨_, _, he, Or.inl rfl⟩

/-- The operations of `Begin`. -/
theorem mem_Begin {t : Crawler} {op : Op} (h : op ∈ Begin t) :
    op = .wgAdd .wgOuter t.maxPages ∨ (∃ pno, op = .goPull pno) ∨ op = .wgWait .wgOuter := by
  simp only [Begin, List.mem_append, List.mem_singleton, List.mem_map] at h
  rcases h with (h | ⟨pno, _, h⟩) | h
  · exact Or.inl h
  · exact Or.inr (Or.inl ⟨pno, h.symm⟩)
  · exact Or.inr (Or.inr h)

theorem opsWt_nonneg (wt : Op → Int) (ops : List Op) (h : ∀ op ∈ ops, 0 ≤ wt op) :
    0 ≤ opsWt wt ops := by
  induction ops with
  | nil => simp [opsWt]
  | cons op ops ih =>
    rw [opsWt_cons]
    have h1 := h op (by simp)
    have h2 := ih (fun o ho => h o (by simp [ho]))
    omega

theorem opsWt_eq_zero (wt : Op → Int) (ops : List Op) (h : ∀ op ∈ ops, wt op = 0) :
    opsWt wt ops = 0 := by
  induction ops with
  | nil => simp [opsWt]
  | cons op ops ih =>
    rw [opsWt_cons, h op (by simp), ih (fun o ho => h o (by simp [ho]))]
    rfl

theorem opsWt_goOuter (nodes : List Card) :
    opsWt wtInner (nodes.map Op.goOuter) = nodes.length := by
  induction nodes with
  | nil => simp [opsWt]
  | cons n nodes ih =>
    rw [List.map_cons, opsWt_cons, ih]
    simp [wtInner]
    ring

theorem opsWt_inner_pull (w : World) (t : Crawler) (pno : Nat) :
    opsWt wtInner (pull w t pno) = 0 := by
  cases h : w.NewDocument (pageUrl t pno) with
  | error err => simp [pull_error h, opsWt, wtInner]
  | ok doc =>
    rw [pull_ok h, opsWt_cons, opsWt_append, opsWt_goOuter]
    simp [opsWt, wtInner]

theorem opsWt_inner_outer (w : World) (t : Crawler) (n : Card) :
    opsWt wtInner (outer w t n) = 1 := by
  obtain ⟨sends, hs, hall⟩ := outer_shape w t n
  rw [hs, opsWt_append, opsWt_eq_zero wtInner sends]
  · simp [opsWt, wtInner]
  · intro op hop
    obtain ⟨ch, m, rfl, _⟩ := hall op hop
    rfl

theorem opsWt_inner_Begin (t : Crawler) : opsWt wtInner (Begin t) = 0 := by
  apply opsWt_eq_zero
  intro op hop
  rcases mem_Begin hop with h | ⟨pno, h⟩ | h <;> subst h <;> rfl

/-- The counter of `wgInner` is what the goroutines still owe to it. -/
theorem Reachable.wgInner_eq {w : World} {t : Crawler} {s : State} (hs : Reachable w t s) :
    s.wgInner = total wtInner s.gs := by
  have h := Reachable.counter_eq (w := w) (t := t) wtInner .wgInner ?_ s hs
  · simp only [State.counter] at h
    rw [h]
    simp [init, total, Body.wt, opsWt_inner_Begin]
  · intro i op
    cases op with
    | send ch m => simp [Op.delta, Op.spawned, total, wtInner]
    | wgAdd g n => cases g <;> simp [Op.delta, Op.spawned, total, wtInner]
    | wgDone g => cases g <;> simp [Op.delta, Op.spawned, total, wtInner]
    | wgWait g => simp [Op.delta, Op.spawned, total, wtInner]
    | goPull pno => simp [Op.delta, Op.spawned, total, wtInner, Body.wt, opsWt_inner_pull]
    | goOuter n => simp [Op.delta, Op.spawned, total, wtInner, Body.wt, opsWt_inner_outer]
    | goAggregator => simp [Op.delta, Op.spawned, total, wtInner, Body.wt]

/-- The tails of the code of a page worker whose fetch succeeds: the whole
code, a tail of the `go` statements followed by the last three operations,
or a tail of the last three operations. -/
theorem pull_suffix {w : World} {t : Crawler} {pno : Nat} {doc : Document} {ops : List Op}
    (h : w.NewDocument (pageUrl t pno) = .ok doc) (hops : ops <:+ pull w t pno) :
    ops = pull w t pno ∨
    (∃ nodes, nodes <:+ doc.articles ∧
      ops = nodes.map Op.goOuter ++
        [Op.goAggregator, Op.wgWait .wgInner, Op.wgDone .wgOuter]) ∨
    ops = [Op.wgWait .wgInner, Op.wgDone .wgOuter] ∨
    ops = [Op.wgDone .wgOuter] ∨
    ops = [] := by
  rw [pull_ok h] at hops ⊢
  rcases List.suffix_cons_iff.1 hops with h1 | h1
  · exact Or.inl h1
  · right
    have hB : [Op.goAggregator, Op.wgWait .wgInner, Op.wgDone .wgOuter] <:+
        doc.articles.map Op.goOuter ++
          [Op.goAggregator, Op.wgWait .wgInner, Op.wgDone .wgOuter] :=
      List.suffix_append _ _
    rcases List.suffix_or_suffix_of_suffix h1 hB with h2 | h2
    · rcases List.suffix_cons_iff.1 h2 with h3 | h3
      · exact Or.inl ⟨[], List.nil_suffix, by simp [h3]⟩
      · rcases List.suffix_cons_iff.1 h3 with h4 | h4
        · exact Or.inr (Or.inl h4)
        · rcases List.suffix_cons_iff.1 h4 with h5 | h5
          · exact Or.inr (Or.inr (Or.inl h5))
          · exact Or.inr (Or.inr (Or.inr (List.suffix_nil.1 h5)))
    · left
      obtain ⟨X, hX⟩ := h2
      obtain ⟨Y, hY⟩ := h1
      rw [← hX, ← List.append_assoc] at hY
      have hYX := List.append_cancel_right hY
      obtain ⟨l1, l2, hl, _, hl2⟩ := List.map_eq_append_iff.1 hYX.symm
      exact ⟨l2, ⟨l1, hl.symm⟩, by rw [← hX, hl2]⟩

/-- What a well formed goroutine still owes to `wgInner` is never negative. -/
theorem WF.wtInner_nonneg {w : World} {t : Crawler} {g : Goroutine} (h : WF w t g) :
    0 ≤ g.body.wt wtInner := by
  cases g with
  | mk fn parent body =>
    cases body with
    | receiving => simp [Body.wt]
    | holding m => simp [Body.wt]
    | storing v => simp [Body.wt]
    | code ops =>
      simp only [Body.wt]
      cases fn with
      | Begin =>
        simp only [WF] at h
        apply opsWt_nonneg
        intro op hop
        rcases mem_Begin (h.subset hop) with h1 | ⟨pno, h1⟩ | h1 <;> subst h1 <;> simp [wtInner]
      | pull pno =>
        simp only [WF] at h
        cases hd : w.NewDocument (pageUrl t pno) with
        | error err =>
          apply opsWt_nonneg
          intro op hop
          have := h.subset hop
          rw [pull_error hd] at this
          simp at this
          subst this
          simp [wtInner]
        | ok doc =>
          rcases pull_suffix hd h with h1 | ⟨nodes, _, h1⟩ | h1 | h1 | h1
          · rw [h1, opsWt_inner_pull]
          · rw [h1, opsWt_append, opsWt_goOuter]
            simp [opsWt, wtInner]
          · rw [h1]; simp [opsWt, wtInner]
          · rw [h1]; simp [opsWt, wtInner]
          · rw [h1]; simp [opsWt]
      | outer n =>
        simp only [WF] at h
        obtain ⟨sends, hs, hall⟩ := outer_shape w t n
        apply opsWt_nonneg
        intro op hop
        have hop2 := h.subset hop
        rw [hs] at hop2
        simp only [List.mem_append, List.mem_singleton] at hop2
        rcases hop2 with h1 | h1
        · obtain ⟨ch, m, rfl, _⟩ := hall op h1
          simp [wtInner]
        · subst h1
          simp [wtInner]
      | aggregator => simp [WF] at h

/-- A restaurant worker that has not finished still owes its `Done`. -/
theorem WF.outer_owes {w : World} {t : Crawler} {g : Goroutine} {n : Card}
    (h : WF w t g) (hfn : g.fn = .outer n) (hb : g.body ≠ .code []) :
    1 ≤ g.body.wt wtInner := by
  cases g with
  | mk fn parent body =>
    simp only at hfn hb
    subst hfn
    cases body with
    | receiving => simp [WF] at h
    | holding m => simp [WF] at h
    | storing v => simp [WF] at h
    | code ops =>
      simp only [WF] at h
      simp only [Body.wt]
      obtain ⟨sends, hs, hall⟩ := outer_shape w t n
      rw [hs] at h
      rcases List.suffix_concat_iff.1 h with h1 | ⟨l, h1, h2⟩
      · subst h1
        exact absurd rfl hb
      · rw [h1, opsWt_append]
        have h3 : 0 ≤ opsWt wtInner l := by
          apply opsWt_nonneg
          intro op hop
          obtain ⟨ch, m, rfl, _⟩ := hall op (h2.subset hop)
          simp [wtInner]
        simp only [opsWt, List.map_cons, List.map_nil, List.sum_cons, List.sum_nil, wtInner]
          at h3 ⊢
        omega

theorem total_nonneg (wt : Op → Int) (gs : List Goroutine)
    (h : ∀ g ∈ gs, 0 ≤ g.body.wt wt) : 0 ≤ total wt gs := by
  induction gs with
  | nil => simp [total]
  | cons x gs ih =>
    have hx := h x (by simp)
    have := ih (fun g hg => h g (by simp [hg]))
    simp only [total, List.map_cons, List.sum_cons] at this ⊢
    omega

theorem le_total (wt : Op → Int) (gs : List Goroutine)
    (h : ∀ g ∈ gs, 0 ≤ g.body.wt wt) (g : Goroutine) (hg : g ∈ gs) :
    g.body.wt wt ≤ total wt gs := by
  induction gs with
  | nil => simp at hg
  | cons x gs ih =>
    have hx := h x (by simp)
    have hgs : ∀ g ∈ gs, 0 ≤ g.body.wt wt := fun g hg => h g (by simp [hg])
    have htot := total_nonneg wt gs hgs
    simp only [List.mem_cons] at hg
    simp only [total, List.map_cons, List.sum_cons] at htot ⊢
    rcases hg with hg | hg
    · subst hg
      omega
    · have := ih hgs hg
      simp only [total] at this
      omega

/-- While the counter of `wgInner` is zero, every restaurant worker started
so far has finished. -/
theorem Reachable.outer_finished {w : World} {t : Crawler} {s : State}
    (hs : Reachable w t s) (h0 : s.wgInner = 0) (g : Goroutine) (hg : g ∈ s.gs)
    (n : Card) (hfn : g.fn = .outer n) : g.body = .code [] := by
  by_contra hb
  have h1 := (hs.wf g hg).outer_owes hfn hb
  have h2 := le_total wtInner s.gs (fun g hg => (hs.wf g hg).wtInner_nonneg) g hg
  have h3 := hs.wgInner_eq
  omega

/-! ## Goroutines by position -/

theorem getElem?_set_append {α : Type} {l sp : List α} {i k : Nat} {a x : α}
    (h : (l.set i a ++ sp)[k]? = some x) :
    (k < l.length ∧ ((k = i ∧ x = a) ∨ (k ≠ i ∧ l[k]? = some x))) ∨
    (l.length ≤ k ∧ x ∈ sp) := by
  by_cases hk : k < l.length
  · left
    refine ⟨hk, ?_⟩
    rw [List.getElem?_append_left (by simpa using hk)] at h
    by_cases hki : k = i
    · subst hki
      rw [List.getElem?_set_self hk] at h
      exact Or.inl ⟨rfl, (Option.some.inj h).symm⟩
    · rw [List.getElem?_set_ne (Ne.symm hki)] at h
      exact Or.inr ⟨hki, h⟩
  · right
    have hk2 : l.length ≤ k := Nat.le_of_not_lt hk
    refine ⟨hk2, ?_⟩
    rw [List.getElem?_append_right (by simpa using hk2)] at h
    exact List.mem_iff_getElem?.2 ⟨_, h⟩

/-- After a step, the goroutine at a position is the one that was there,
unchanged or moved, or one that the step has started; in the latter case
the goroutine that started it is known. -/
theorem Step.getElem? {w : World} {t : Crawler} {s s1 : State} {mv : Move}
    (h : Step w t s mv s1)
    {k : Nat} {g1 : Goroutine} (hk : s1.gs[k]? = some g1) :
    (∃ g, s.gs[k]? = some g ∧ (g1 = g ∨ Moved s g g1)) ∨
    (s.gs.length ≤ k ∧ ∃ (i : Nat) (g : Goroutine) (op : Op) (rest : List Op),
      s.gs[i]? = some g ∧ g.body = .code (op :: rest) ∧
      op.ready s = true ∧ g1 ∈ op.spawned w t i ∧
      s1.gs[i]? = some (g.withBody (.code rest))) := by
  cases h with
  | panic i g op rest hg hb hready hneg => exact Or.inl ⟨g1, hk, Or.inl rfl⟩
  | op i g op rest hg hb hready hpos =>
    simp only at hk
    have hi : i < s.gs.length := (List.getElem?_eq_some.1 hg).1
    rcases getElem?_set_append hk with ⟨hlt, h1 | h1⟩ | ⟨hge, hmem⟩
    · obtain ⟨rfl, rfl⟩ := h1
      exact Or.inl ⟨g, hg, Or.inr ⟨rfl, rfl, Or.inl ⟨op, rest, hb, rfl, Or.inl hready⟩⟩⟩
    · exact Or.inl ⟨g1, h1.2, Or.inl rfl⟩
    · refine Or.inr ⟨hge, i, g, op, rest, hg, hb, hready, hmem, ?_⟩
      simp only
      rw [List.getElem?_append_left (by simpa using hi), List.getElem?_set_self hi]
  | load i g m hg hb =>
    simp only [State.setBody] at hk
    by_cases hki : k = i
    · subst hki
      have hi : k < s.gs.length := (List.getElem?_eq_some.1 hg).1
      rw [List.getElem?_set_self hi] at hk
      cases hk
      exact Or.inl ⟨g, hg, Or.inr ⟨rfl, rfl, Or.inr ⟨by rw [hb]; rfl, load_inLoop s m⟩⟩⟩
    · rw [List.getElem?_set_ne (Ne.symm hki)] at hk
      exact Or.inl ⟨g1, hk, Or.inl rfl⟩
  | store i g v hg hb =>
    simp only [State.setBody, State.store] at hk
    by_cases hki : k = i
    · subst hki
      have hi : k < s.gs.length := (List.getElem?_eq_some.1 hg).1
      rw [List.getElem?_set_self hi] at hk
      cases hk
      exact Or.inl ⟨g, hg, Or.inr ⟨rfl, rfl, Or.inr ⟨by rw [hb]; rfl, rfl⟩⟩⟩
    · rw [List.getElem?_set_ne (Ne.symm hki)] at hk
      exact Or.inl ⟨g1, hk, Or.inl rfl⟩
  | comm i j g a ch m rest hg ha hb hr hch =>
    simp only [State.setBody] at hk
    have hi : i < s.gs.length := (List.getElem?_eq_some.1 hg).1
    have hj : j < s.gs.length := (List.getElem?_eq_some.1 ha).1
    by_cases hkj : k = j
    · subst hkj
      rw [List.getElem?_set_self (by simpa using hj)] at hk
      cases hk
      exact Or.inl ⟨a, ha, Or.inr ⟨rfl, rfl, Or.inr ⟨by rw [hr]; rfl, rfl⟩⟩⟩
    · rw [List.getElem?_set_ne (Ne.symm hkj)] at hk
      by_cases hki : k = i
      · subst hki
        rw [List.getElem?_set_self hi] at hk
        cases hk
        exact Or.inl ⟨g, hg, Or.inr ⟨rfl, rfl,
          Or.inl ⟨_, rest, hb, rfl, Or.inr ⟨ch, m, rfl, hch⟩⟩⟩⟩
      · rw [List.getElem?_set_ne (Ne.symm hki)] at hk
        exact Or.inl ⟨g1, hk, Or.inl rfl⟩

/-- The goroutine an operation starts has the goroutine that ran it as parent. -/
theorem parent_of_spawned {w : World} {t : Crawler} {i : Nat} {op : Op} {c : Goroutine}
    (h : c ∈ op.spawned w t i) : c.parent = some i := by
  cases op <;> simp [Op.spawned] at h <;> subst h <;> rfl

/-- A restaurant worker is started by a `go t.outer(node)` statement only. -/
theorem goOuter_of_spawned {w : World} {t : Crawler} {i : Nat} {op : Op} {c : Goroutine}
    {n : Card} (h : c ∈ op.spawned w t i) (hfn : c.fn = .outer n) :
    op = .goOuter n ∧ c = ⟨.outer n, some i, .code (outer w t n)⟩ := by
  cases op <;> simp [Op.spawned] at h <;> subst h <;> simp at hfn
  subst hfn
  exact ⟨rfl, rfl⟩

/-- The parent of every goroutine is a goroutine of the state. -/
theorem Reachable.parent_lt {w : World} {t : Crawler} :
    ∀ s, Reachable w t s →
      ∀ (j : Nat) (g : Goroutine) (i : Nat),
        s.gs[j]? = some g → g.parent = some i → i < s.gs.length := by
  apply Reachable.induction
  · intro j g i hj hp
    have hmem : g ∈ (init t).gs := List.mem_iff_getElem?.2 ⟨j, hj⟩
    simp [init] at hmem
    subst hmem
    simp at hp
  · intro s mv s1 _ ih hstep j g1 i hj hp
    have hlen : s.gs.length ≤ s1.gs.length := by
      cases hstep with
      | panic => exact Nat.le_refl _
      | op => simp
      | load => simp [State.setBody]
      | store => simp [State.setBody, State.store]
      | comm => simp [State.setBody]
    rcases hstep.getElem? hj with ⟨g, hg, h1 | h1⟩ | ⟨_, k, g, op, rest, hg, _, _, hmem, _⟩
    · subst h1
      exact Nat.lt_of_lt_of_le (ih j g1 i hg hp) hlen
    · rw [h1.2.1] at hp
      exact Nat.lt_of_lt_of_le (ih j g i hg hp) hlen
    · rw [parent_of_spawned hmem] at hp
      cases hp
      exact Nat.lt_of_lt_of_le (List.getElem?_eq_some.1 hg).1 hlen

/-! ## A page worker waits for its restaurant workers -/

/-- The operation after which a page worker is past its `Wait`: the `Wait`
itself, or the deferred `Done` that follows it. -/
theorem pull_head_of_pastWait {w : World} {t : Crawler} {pno : Nat} {doc : Document}
    {op : Op} {rest : List Op} (hd : w.NewDocument (pageUrl t pno) = .ok doc)
    (hops : (op :: rest) <:+ pull w t pno) (hpw : pastWait (.code rest)) :
    (op = .wgWait .wgInner ∧ rest = [Op.wgDone .wgOuter]) ∨
    (op = .wgDone .wgOuter ∧ rest = []) := by
  have hlen : rest.length ≤ 1 := by
    rcases hpw with h | h <;> cases h <;> simp
  rcases pull_suffix hd hops with h1 | ⟨nodes, _, h1⟩ | h1 | h1 | h1
  · rw [pull_ok hd] at h1
    have := congrArg List.length h1
    simp at this
    omega
  · have := congrArg List.length h1
    simp at this
    omega
  · simp at h1
    exact Or.inl h1
  · simp at h1
    exact Or.inr h1
  · simp at h1

/-- Core of C3: once a page worker whose fetch succeeded is past its
`t.wgInner.Wait()`, every restaurant worker it started has finished. -/
theorem Reachable.children_finished {w : World} {t : Crawler} :
    ∀ s, Reachable w t s →
      ∀ (i : Nat) (gi : Goroutine) (pno : Nat) (doc : Document) (j : Nat) (gj : Goroutine)
        (n : Card),
        s.gs[i]? = some gi → gi.fn = .pull pno →
        w.NewDocument (pageUrl t pno) = .ok doc → pastWait gi.body →
        s.gs[j]? = some gj → gj.parent = some i → gj.fn = .outer n →
        gj.body = .code [] := by
  apply Reachable.induction
  · intro i gi pno doc j gj n hi hfn
    have hmem : gi ∈ (init t).gs := List.mem_iff_getElem?.2 ⟨i, hi⟩
    simp [init] at hmem
    subst hmem
    simp at hfn
  · intro s mv s1 hs ih hstep i gi1 pno doc j gj1 n hi hfi hd hpw hj hpj hfj
    have hwf : ∀ (k : Nat) (g : Goroutine), s.gs[k]? = some g → WF w t g := fun k g hk =>
      hs.wf g (List.mem_iff_getElem?.2 ⟨k, hk⟩)
    rcases hstep.getElem? hj with ⟨gj, hgj, hjcase⟩ | ⟨_, k, g, op, rest, hg, hb, _, hmem, hk1⟩
    · -- the worker was there before the step
      have hpj0 : gj.parent = some i := by
        rcases hjcase with h | h
        · rw [← h]; exact hpj
        · rw [← h.2.1]; exact hpj
      have hfj0 : gj.fn = .outer n := by
        rcases hjcase with h | h
        · rw [← h]; exact hfj
        · rw [← h.1]; exact hfj
      -- before the step the worker had finished
      have hold : gj.body = .code [] := by
        rcases hstep.getElem? hi with ⟨gi, hgi, hicase⟩ | ⟨hge, _⟩
        · rcases hicase with h | h
          · subst h
            exact ih i gi1 pno doc j gj n hgi hfi hd hpw hgj hpj0 hfj0
          · obtain ⟨hfn, _, hmove⟩ := h
            have hfi0 : gi.fn = .pull pno := by rw [← hfn]; exact hfi
            rcases hmove with ⟨op, rest, hb, hb1, hready⟩ | ⟨_, hb1⟩
            · have hwfi := hwf i gi hgi
              have hsuf : (op :: rest) <:+ pull w t pno := by
                cases gi with
                | mk fn parent body =>
                  simp only at hfi0 hb
                  subst hfi0 hb
                  simpa [WF] using hwfi
              rw [hb1] at hpw
              rcases pull_head_of_pastWait hd hsuf hpw with ⟨hop, _⟩ | ⟨hop, hrest⟩
              · subst hop
                have h0 : s.wgInner = 0 := by
                  rcases hready with h | ⟨ch, m, h, _⟩
                  · simpa [Op.ready, State.counter] using h
                  · cases h
                exact hs.outer_finished h0 gj (List.mem_iff_getElem?.2 ⟨j, hgj⟩) n hfj0
              · subst hop hrest
                exact ih i gi pno doc j gj n hgi hfi0 hd (Or.inl hb) hgj hpj0 hfj0
            · rcases hpw with h | h <;> rw [h] at hb1 <;> cases hb1
        · have := Reachable.parent_lt s hs j gj i hgj hpj0
          omega
      rcases hjcase with h | h
      · rw [h]; exact hold
      · obtain ⟨_, _, hmove⟩ := h
        rw [hold] at hmove
        rcases hmove with ⟨op, rest, hb, _⟩ | ⟨hb, _⟩ <;> cases hb
    · -- the worker is started by this step, by the page worker itself
      have hpar := parent_of_spawned hmem
      rw [hpj] at hpar
      cases hpar
      rw [hi] at hk1
      cases hk1
      obtain ⟨hop, _⟩ := goOuter_of_spawned hmem hfj
      subst hop
      have hfi0 : g.fn = .pull pno := hfi
      have hsuf : (Op.goOuter n :: rest) <:+ pull w t pno := by
        have hwfi := hwf i g hg
        cases g with
        | mk fn parent body =>
          simp only at hfi0 hb
          subst hfi0 hb
          simpa [WF] using hwfi
      have hpw2 : pastWait (.code rest) := hpw
      rcases pull_head_of_pastWait hd hsuf hpw2 with ⟨hop, _⟩ | ⟨hop, _⟩ <;> cases hop

/-! ## What a goroutine starts -/

theorem filterMap_set {α β : Type} (f : α → Option β) (l : List α) (k : Nat) (a b : α)
    (hk : l[k]? = some b) (hf : f a = f b) : (l.set k a).filterMap f = l.filterMap f := by
  induction l generalizing k with
  | nil => simp
  | cons x l ih =>
    cases k with
    | zero =>
      simp at hk
      subst hk
      simp [List.filterMap_cons, hf]
    | succ k =>
      simp at hk
      simp [List.filterMap_cons, ih k hk]

theorem started_set (i : Nat) (gs : List Goroutine) (k : Nat) (g : Goroutine) (b : Body)
    (hk : gs[k]? = some g) : started i (gs.set k (g.withBody b)) = started i gs :=
  filterMap_set (kidOf i) gs k _ g hk rfl

theorem started_eq_nil (i : Nat) (gs : List Goroutine)
    (h : ∀ g ∈ gs, g.parent ≠ some i) : started i gs = [] := by
  simp only [started, List.filterMap_eq_nil_iff]
  intro g hg
  simp [kidOf, h g hg]

theorem started_spawned (w : World) (t : Crawler) (i k : Nat) (op : Op) :
    started i (op.spawned w t k) = if k = i then (op.starts).toList else [] := by
  cases op <;> by_cases hk : k = i <;> simp [Op.spawned, started, kidOf, Op.starts, hk]

theorem pending_cons (op : Op) (rest : List Op) :
    pending (.code (op :: rest)) = (op.starts).toList ++ pending (.code rest) := by
  cases op <;> simp [pending, Op.starts, List.filterMap_cons]

/-- A goroutine starts in the code of its function. -/
theorem pending_of_spawned {w : World} {t : Crawler} {k : Nat} {op : Op} {c : Goroutine}
    (h : c ∈ op.spawned w t k) : pending c.body = pending (.code (codeOf w t c.fn)) := by
  cases op <;> simp [Op.spawned] at h <;> subst h <;> simp [codeOf, pending]

/-- The goroutines a goroutine has started, followed by those it still has
to start, are the `go` statements of its code, in program order. -/
theorem Reachable.started_append {w : World} {t : Crawler} :
    ∀ s, Reachable w t s →
      ∀ (i : Nat) (gi : Goroutine), s.gs[i]? = some gi →
        started i s.gs ++ pending gi.body = pending (.code (codeOf w t gi.fn)) := by
  apply Reachable.induction
  · intro i gi hi
    have hmem : gi ∈ (init t).gs := List.mem_iff_getElem?.2 ⟨i, hi⟩
    simp [init] at hmem
    subst hmem
    simp [started, kidOf, init, codeOf]
  · intro s mv s1 hs ih hstep i gi1 hi
    cases hstep with
    | panic k g op rest hg hb hready hneg => exact ih i gi1 hi
    | op k g op rest hg hb hready hpos =>
      simp only at hi ⊢
      have hkids : started i (s.gs.set k (g.withBody (.code rest)) ++ op.spawned w t k) =
          started i s.gs ++ if k = i then (op.starts).toList else [] := by
        rw [started, List.filterMap_append]
        change started i _ ++ started i _ = _
        rw [started_set i s.gs k g _ hg, started_spawned]
      rw [hkids]
      rcases getElem?_set_append hi with ⟨_, h1 | h1⟩ | ⟨hge, hmem⟩
      · obtain ⟨rfl, rfl⟩ := h1
        have := ih i g hg
        rw [hb, pending_cons] at this
        simpa [Goroutine.withBody, List.append_assoc] using this
      · have := ih i gi1 h1.2
        simpa [Ne.symm h1.1] using this
      · have hki : k ≠ i := by
          have := (List.getElem?_eq_some.1 hg).1
          omega
        have hnil : started i s.gs = [] := by
          apply started_eq_nil
          intro c hc hpar
          obtain ⟨j, hj⟩ := List.mem_iff_getElem?.1 hc
          have := Reachable.parent_lt s hs j c i hj hpar
          omega
        rw [hnil, pending_of_spawned hmem]
        simp [hki]
    | load k g m hg hb =>
      simp only [State.setBody] at hi ⊢
      rw [started_set i s.gs k g _ hg]
      by_cases hik : i = k
      · subst hik
        have hlt := (List.getElem?_eq_some.1 hg).1
        rw [List.getElem?_set_self hlt] at hi
        cases hi
        have := ih i g hg
        rw [hb] at this
        cases m <;> simpa [Goroutine.withBody, pending, State.load] using this
      · rw [List.getElem?_set_ne (Ne.symm hik)] at hi
        exact ih i gi1 hi
    | store k g v hg hb =>
      simp only [State.setBody, State.store] at hi ⊢
      rw [started_set i s.gs k g _ hg]
      by_cases hik : i = k
      · subst hik
        have hlt := (List.getElem?_eq_some.1 hg).1
        rw [List.getElem?_set_self hlt] at hi
        cases hi
        have := ih i g hg
        rw [hb] at this
        simpa [Goroutine.withBody, pending] using this
      · rw [List.getElem?_set_ne (Ne.symm hik)] at hi
        exact ih i gi1 hi
    | comm k l g a ch m rest hg ha hb hr hch =>
      simp only [State.setBody] at hi ⊢
      have hkl : k ≠ l := by
        intro hkl
        subst hkl
        rw [hg] at ha
        cases ha
        rw [hb] at hr
        cases hr
      have ha2 : (s.gs.set k (g.withBody (.code rest)))[l]? = some a := by
        rw [List.getElem?_set_ne hkl]
        exact ha
      rw [started_set i _ l a _ ha2, started_set i s.gs k g _ hg]
      have hlk := (List.getElem?_eq_some.1 hg).1
      have hll := (List.getElem?_eq_some.1 ha).1
      by_cases hil : i = l
      · subst hil
        rw [List.getElem?_set_self (by simpa using hll)] at hi
        cases hi
        have := ih i a ha
        rw [hr] at this
        simpa [Goroutine.withBody, pending] using this
      · rw [List.getElem?_set_ne (Ne.symm hil)] at hi
        by_cases hik : i = k
        · subst hik
          rw [List.getElem?_set_self hlk] at hi
          cases hi
          have := ih i g hg
          rw [hb, pending_cons] at this
          simpa [Goroutine.withBody, Op.starts] using this
        · rw [List.getElem?_set_ne (Ne.symm hik)] at hi
          exact ih i gi1 hi

/-- The `go` statements of a page worker whose fetch succeeds: one
restaurant worker per card, in document order, then the aggregation goroutine. -/
theorem pending_pull {w : World} {t : Crawler} {pno : Nat} {doc : Document}
    (hd : w.NewDocument (pageUrl t pno) = .ok doc) :
    pending (.code (pull w t pno)) = doc.articles.map Fn.outer ++ [Fn.aggregator] := by
  rw [pull_ok hd]
  simp only [pending, List.filterMap_cons, Op.starts, List.filterMap_append,
    List.filterMap_nil]
  congr 1
  induction doc.articles with
  | nil => rfl
  | cons n nodes ih => simp [List.filterMap_cons, Op.starts, ih]

/-- The run of `Begin` over a single page without cards. -/
theorem run_no_card (w : World) (t : Crawler) (doc : Document) (hmax : t.maxPages = 1)
    (hd : w.NewDocument (pageUrl t 0) = .ok doc) (hnil : doc.articles = []) :
    run w t (init t) movesNoCard = some endNoCard := by
  have hB : Begin t = [Op.wgAdd .wgOuter 1, Op.goPull 0, Op.wgWait .wgOuter] := by
    simp [Begin, hmax, List.range_succ]
  have hP : pull w t 0 =
      [Op.wgAdd .wgInner 0, Op.goAggregator, Op.wgWait .wgInner, Op.wgDone .wgOuter] := by
    rw [pull_ok hd, hnil]
    rfl
  simp [movesNoCard, endNoCard, run, exec, init, hB, hP, Op.ready, Op.delta, Op.spawned,
    Op.emitted, Goroutine.withBody, State.counter]

theorem run_one_card : run worldOneCard onePage (init onePage) movesOneCard = some endOneCard := by
  decide

/-- C3: for a listing page that is fetched and has the cards `doc.articles`,
the `go` statements of `pull` are one `go t.outer(node)` per card, in
document order, then the aggregation goroutine, and `pull` sends nothing. In
every reachable state the goroutines the page worker has started, followed by
those it still has to start, are exactly these; and once it is past
`t.wgInner.Wait()`, so whenever it runs or has run its `t.wgOuter.Done()`, it
has started exactly one restaurant worker per card and every one of them has
finished. With no card its code is `Add(0)`, the aggregation goroutine,
`Wait` and `Done`, and alone on its run it finishes with no worker started
and nothing recorded. -/
theorem pull_waits_for_its_workers (w : World) (t : Crawler) (pno : Nat) (doc : Document)
    (hd : w.NewDocument (pageUrl t pno) = .ok doc) :
    pending (.code (pull w t pno)) = doc.articles.map Fn.outer ++ [Fn.aggregator] ∧
    (∀ op ∈ pull w t pno, ∀ ch m, op ≠ Op.send ch m) ∧
    (∀ s, Reachable w t s → ∀ (i : Nat) (gi : Goroutine),
      s.gs[i]? = some gi → gi.fn = .pull pno →
        started i s.gs ++ pending gi.body = doc.articles.map Fn.outer ++ [Fn.aggregator] ∧
        (pastWait gi.body →
          started i s.gs = doc.articles.map Fn.outer ++ [Fn.aggregator] ∧
          ∀ (j : Nat) (gj : Goroutine) (n : Card),
            s.gs[j]? = some gj → gj.parent = some i → gj.fn = .outer n →
            gj.body = .code [])) ∧
    (doc.articles = [] →
      pull w t pno =
        [Op.wgAdd .wgInner 0, Op.goAggregator, Op.wgWait .wgInner, Op.wgDone .wgOuter] ∧
      (t.maxPages = 1 → pno = 0 → run w t (init t) movesNoCard = some endNoCard)) := by
  refine ⟨pending_pull hd, ?_, ?_, ?_⟩
  · intro op hop ch m hsend
    subst hsend
    rw [pull_ok hd] at hop
    simp at hop
  · intro s hs i gi hi hfn
    have hk := Reachable.started_append s hs i gi hi
    rw [hfn] at hk
    simp only [codeOf] at hk
    rw [pending_pull hd] at hk
    refine ⟨hk, ?_⟩
    intro hpw
    refine ⟨?_, ?_⟩
    · rcases hpw with h | h <;> rw [h] at hk <;> simpa [pending, Op.starts] using hk
    · intro j gj n hj hpj hfj
      exact Reachable.children_finished s hs i gi pno doc j gj n hi hfn hd hpw hj hpj hfj
  · intro hnil
    refine ⟨?_, ?_⟩
    · rw [pull_ok hd, hnil]
      rfl
    · intro hmax hp
      subst hp
      exact run_no_card w t doc hmax hd hnil

/-- Witness for C3: at the end of a complete run over one page with one
card, the page worker has started the worker of that card and the
aggregation goroutine, and the worker has finished. -/
theorem pull_waits_for_its_workers_witness :
    started 1 endOneCard.gs = [Fn.outer sampleCard, Fn.aggregator] ∧
    endOneCard.gs[2]? = some ⟨.outer sampleCard, some 1, .code []⟩ := by
  have h := (pull_waits_for_its_workers worldOneCard onePage 0 docOneCard rfl).2.2.1
    endOneCard ⟨movesOneCard, run_one_card⟩ 1 ⟨.pull 0, some 0, .code []⟩ rfl rfl
  exact ⟨(h.2 (Or.inr rfl)).1, rfl⟩

/-! ## The counter of `wgOuter` -/

theorem opsWt_outer_goPull (w : World) (t : Crawler) (l : List Nat) :
    opsWt (wtOuter w t) (l.map Op.goPull) = (l.countP (pageOk w t) : Int) := by
  induction l with
  | nil => simp [opsWt]
  | cons p l ih =>
    rw [List.map_cons, opsWt_cons, ih, List.countP_cons]
    by_cases hp : pageOk w t p = true
    · simp [wtOuter, hp]
      ring
    · simp [wtOuter, hp]

theorem opsWt_outer_pull (w : World) (t : Crawler) (pno : Nat) :
    opsWt (wtOuter w t) (pull w t pno) = if pageOk w t pno then 1 else 0 := by
  cases h : w.NewDocument (pageUrl t pno) with
  | error err => simp [pull_error h, opsWt, wtOuter, pageOk, h]
  | ok doc =>
    rw [pull_ok h, opsWt_cons, opsWt_append, opsWt_eq_zero _ (doc.articles.map Op.goOuter)]
    · simp [opsWt, wtOuter, pageOk, h]
    · intro op hop
      simp only [List.mem_map] at hop
      obtain ⟨n, _, rfl⟩ := hop
      rfl

theorem opsWt_outer_outer (w : World) (t : Crawler) (n : Card) :
    opsWt (wtOuter w t) (outer w t n) = 0 := by
  obtain ⟨sends, hs, hall⟩ := outer_shape w t n
  apply opsWt_eq_zero
  intro op hop
  rw [hs] at hop
  simp only [List.mem_append, List.mem_singleton] at hop
  rcases hop with h1 | h1
  · obtain ⟨ch, m, rfl, _⟩ := hall op h1
    rfl
  · subst h1
    rfl

/-- The counter of `wgOuter` is what the goroutines still owe to it, plus
one for every page of the run whose fetch fails. -/
theorem Reachable.wgOuter_eq {w : World} {t : Crawler} {s : State} (hs : Reachable w t s) :
    s.wgOuter = total (wtOuter w t) s.gs + t.maxPages -
      ((List.range t.maxPages.toNat).countP (pageOk w t) : Int) := by
  have h := Reachable.counter_eq (w := w) (t := t) (wtOuter w t) .wgOuter ?_ s hs
  · simp only [State.counter] at h
    rw [h]
    simp only [init, total, Body.wt, List.map_cons, List.map_nil, List.sum_cons, List.sum_nil,
      Begin, opsWt_append, opsWt_outer_goPull]
    simp [opsWt, wtOuter]
    ring
  · intro i op
    cases op with
    | send ch m => simp [Op.delta, Op.spawned, total, wtOuter]
    | wgAdd g n => cases g <;> simp [Op.delta, Op.spawned, total, wtOuter]
    | wgDone g => cases g <;> simp [Op.delta, Op.spawned, total, wtOuter]
    | wgWait g => simp [Op.delta, Op.spawned, total, wtOuter]
    | goPull pno =>
      simp only [Op.delta, Op.spawned, total, wtOuter, Body.wt, List.map_cons, List.map_nil,
        List.sum_cons, List.sum_nil, opsWt_outer_pull]
      ring
    | goOuter n => simp [Op.delta, Op.spawned, total, wtOuter, Body.wt, opsWt_outer_outer]
    | goAggregator => simp [Op.delta, Op.spawned, total, wtOuter, Body.wt]

/-- No `go` statement starts the function `Begin`. -/
theorem fn_of_spawned {w : World} {t : Crawler} {i : Nat} {op : Op} {c : Goroutine}
    (h : c ∈ op.spawned w t i) : c.fn ≠ .Begin := by
  cases op <;> simp [Op.spawned] at h <;> subst h <;> simp

/-- The caller of `Begin` is goroutine 0 and no other. -/
theorem Reachable.Begin_index {w : World} {t : Crawler} :
    ∀ s, Reachable w t s →
      ∀ (k : Nat) (g : Goroutine), s.gs[k]? = some g → g.fn = .Begin → k = 0 := by
  apply Reachable.induction
  · intro k g hk _
    have := (List.getElem?_eq_some.1 hk).1
    simp [init] at this
    exact this
  · intro s mv s1 _ ih hstep k g1 hk hfn
    rcases hstep.getElem? hk with ⟨g, hg, h1 | h1⟩ | ⟨_, i, g, op, rest, _, _, _, hmem, _⟩
    · subst h1
      exact ih k g1 hg hfn
    · exact ih k g hg (by rw [← h1.1]; exact hfn)
    · exact absurd hfn (fn_of_spawned hmem)

/-- What a well formed goroutine still owes to `wgOuter` is never negative,
except for `Begin` before its `Add`. -/
theorem WF.wtOuter_nonneg {w : World} {t : Crawler} {g : Goroutine} (h : WF w t g)
    (hb : g.fn = .Begin → g.body ≠ .code (Begin t)) :
    0 ≤ g.body.wt (wtOuter w t) := by
  cases g with
  | mk fn parent body =>
    cases body with
    | receiving => simp [Body.wt]
    | holding m => simp [Body.wt]
    | storing v => simp [Body.wt]
    | code ops =>
      simp only [Body.wt]
      cases fn with
      | Begin =>
        simp only [WF] at h
        have hne : ops ≠ Begin t := fun h1 => hb rfl (by rw [h1])
        simp only [Begin, List.singleton_append, List.cons_append, List.nil_append] at h hne
        rcases List.suffix_cons_iff.1 h with h1 | h1
        · exact absurd h1 hne
        · apply opsWt_nonneg
          intro op hop
          have hop2 := h1.subset hop
          simp only [List.mem_append, List.mem_map, List.mem_singleton] at hop2
          rcases hop2 with ⟨pno, _, h2⟩ | h2
          · subst h2
            simp only [wtOuter]
            split <;> simp
          · subst h2
            simp [wtOuter]
      | pull pno =>
        simp only [WF] at h
        apply opsWt_nonneg
        intro op hop
        have hop2 := h.subset hop
        cases hd : w.NewDocument (pageUrl t pno) with
        | error err =>
          rw [pull_error hd] at hop2
          simp at hop2
          subst hop2
          simp [wtOuter]
        | ok doc =>
          rw [pull_ok hd] at hop2
          simp only [List.mem_cons, List.mem_append, List.mem_map, List.mem_singleton,
            List.not_mem_nil, or_false] at hop2
          rcases hop2 with h1 | ⟨n, _, h1⟩ | h1 | h1 | h1 <;> subst h1 <;> simp [wtOuter]
      | outer n =>
        simp only [WF] at h
        obtain ⟨sends, hs, hall⟩ := outer_shape w t n
        apply opsWt_nonneg
        intro op hop
        have hop2 := h.subset hop
        rw [hs] at hop2
        simp only [List.mem_append, List.mem_singleton] at hop2
        rcases hop2 with h1 | h1
        · obtain ⟨ch, m, rfl, _⟩ := hall op h1
          simp [wtOuter]
        · subst h1
          simp [wtOuter]
      | aggregator => simp [WF] at h

/-- Core of C4: when the fetch of one page of the run fails, `Begin` never
returns: its `t.wgOuter.Wait()` needs the counter at zero, and the counter
stays above zero because the failed page worker never calls `Done`. -/
theorem Reachable.Begin_blocked {w : World} {t : Crawler} (pno : Nat)
    (hp : pno < t.maxPages.toNat) (hfail : pageOk w t pno = false) :
    ∀ s, Reachable w t s →
      ∀ (k : Nat) (g : Goroutine), s.gs[k]? = some g → g.fn = .Begin → g.body ≠ .code [] := by
  have hcount : ((List.range t.maxPages.toNat).countP (pageOk w t) : Int) + 1 ≤ t.maxPages := by
    have h1 : (List.range t.maxPages.toNat).countP (pageOk w t) ≤
        (List.range t.maxPages.toNat).length := List.countP_le_length _
    have h2 : (List.range t.maxPages.toNat).countP (pageOk w t) ≠
        (List.range t.maxPages.toNat).length := by
      intro h
      have := (List.countP_eq_length (p := pageOk w t)).1 h pno (List.mem_range.2 hp)
      rw [hfail] at this
      cases this
    simp only [List.length_range] at h1 h2
    have h3 : ((t.maxPages.toNat : Nat) : Int) = t.maxPages := Int.toNat_of_nonneg (by omega)
    omega
  apply Reachable.induction
  · intro k g hk _
    have hmem : g ∈ (init t).gs := List.mem_iff_getElem?.2 ⟨k, hk⟩
    simp [init] at hmem
    subst hmem
    simp [Begin]
  · intro s mv s1 hs ih hstep k g1 hk hfn hbody
    rcases hstep.getElem? hk with ⟨g, hg, h1 | h1⟩ | ⟨_, i, g, op, rest, _, _, _, hmem, _⟩
    · subst h1
      exact ih k g1 hg hfn hbody
    · obtain ⟨hfn1, _, hmove⟩ := h1
      have hfn0 : g.fn = .Begin := by rw [← hfn1]; exact hfn
      rw [hbody] at hmove
      rcases hmove with ⟨op, rest, hb, hb1, hready⟩ | ⟨_, hb1⟩
      · cases hb1
        have hwf := hs.wf g (List.mem_iff_getElem?.2 ⟨k, hg⟩)
        have hsuf : [op] <:+ Begin t := by
          cases g with
          | mk fn parent body =>
            simp only at hfn0 hb
            subst hfn0 hb
            simpa [WF] using hwf
        have hop : op = .wgWait .wgOuter := by
          simp only [Begin] at hsuf
          rcases List.suffix_concat_iff.1 hsuf with h | ⟨l, h, _⟩
          · cases h
          · cases l with
            | nil => simpa using h
            | cons x l =>
              have := congrArg List.length h
              simp at this
        subst hop
        have h0 : s.wgOuter = 0 := by
          rcases hready with h | ⟨ch, m, h, _⟩
          · simpa [Op.ready, State.counter] using h
          · cases h
        have hk0 := Reachable.Begin_index s hs k g hg hfn0
        have htot : 0 ≤ total (wtOuter w t) s.gs := by
          apply total_nonneg
          intro c hc
          apply (hs.wf c hc).wtOuter_nonneg
          intro hcfn
          obtain ⟨j, hj⟩ := List.mem_iff_getElem?.1 hc
          have hj0 := Reachable.Begin_index s hs j c hj hcfn
          rw [hj0, ← hk0, hg] at hj
          cases hj
          rw [hb]
          simp [Begin]
        have := hs.wgOuter_eq
        omega
      · simp [Body.inLoop] at hb1
    · exact absurd hfn (fn_of_spawned hmem)

/-- When no page can be fetched, no aggregation goroutine is ever started
and nothing is ever appended to the two slices. -/
theorem Reachable.nothing_recorded {w : World} {t : Crawler}
    (hall : ∀ pno, pageOk w t pno = false) :
    ∀ s, Reachable w t s →
      (∀ g ∈ s.gs, ∃ ops, g.body = .code ops) ∧ s.errors = [] ∧ s.restaurants = [] := by
  have hloc : ∀ s, Reachable w t s → ∀ g ∈ s.gs,
      ∃ ops, g.body = .code ops ∧ ∀ op ∈ ops, op.starts = none ∨ ∃ pno, op = .goPull pno := by
    refine Reachable.forall_goroutine _ ?_ ?_ ?_ ?_
    · refine ⟨_, rfl, ?_⟩
      intro op hop
      rcases mem_Begin hop with h | ⟨pno, h⟩ | h
      · subst h; exact Or.inl rfl
      · exact Or.inr ⟨pno, h⟩
      · subst h; exact Or.inl rfl
    · intro g op rest ⟨ops, hb, hops⟩ hb2
      rw [hb2] at hb
      cases hb
      exact ⟨rest, rfl, fun o ho => hops o (by simp [ho])⟩
    · intro g op rest i ⟨ops, hb, hops⟩ hb2 c hc
      rw [hb2] at hb
      cases hb
      rcases hops op (by simp) with h | ⟨pno, h⟩
      · cases op <;> simp [Op.starts] at h <;> simp [Op.spawned] at hc
      · subst h
        simp [Op.spawned] at hc
        subst hc
        have hok := hall pno
        cases hd : w.NewDocument (pageUrl t pno) with
        | ok doc => simp [pageOk, hd] at hok
        | error err =>
          refine ⟨_, rfl, ?_⟩
          intro op hop
          rw [pull_error hd] at hop
          simp at hop
          subst hop
          exact Or.inl rfl
    · intro g b ⟨ops, hb, _⟩ hb2
      rw [hb] at hb2
      simp [Body.inLoop] at hb2
  intro s hs
  refine ⟨fun g hg => ?_, ?_⟩
  · obtain ⟨ops, hb, _⟩ := hloc s hs g hg
    exact ⟨ops, hb⟩
  · revert s
    apply Reachable.induction
    · exact ⟨rfl, rfl⟩
    · intro s mv s1 hs ih hstep
      cases hstep with
      | panic i g op rest hg hb hready hneg => exact ih
      | op i g op rest hg hb hready hpos => exact ih
      | load i g m hg hb => exact ih
      | store i g v hg hb =>
        obtain ⟨ops, hb2, _⟩ := hloc s hs g (List.mem_iff_getElem?.2 ⟨i, hg⟩)
        rw [hb] at hb2
        cases hb2
      | comm i j g a ch m rest hg ha hb hr hch => exact ih

/-- C4, the code on a failed listing fetch: the page worker only sends the
error and returns before `defer t.wgOuter.Done()` is reached. So when the
fetch of a page of the run fails, `Begin` never returns, in any interleaving;
and when no page can be fetched there is no aggregation goroutine to receive
the error, which is never recorded. -/
theorem failed_page_blocks_Begin (w : World) (t : Crawler) (pno : Nat) (err : GoError)
    (hp : pno < t.maxPages.toNat) (hfail : w.NewDocument (pageUrl t pno) = .error err) :
    pull w t pno = [Op.send .chErr (.err err)] ∧
    (∀ s, Reachable w t s → ∀ (k : Nat) (g : Goroutine),
      s.gs[k]? = some g → g.fn = .Begin → g.body ≠ .code []) ∧
    ((∀ q, pageOk w t q = false) → ∀ s, Reachable w t s →
      s.errors = [] ∧ ∀ g ∈ s.gs, g.fn ≠ .aggregator) := by
  refine ⟨pull_error hfail, ?_, ?_⟩
  · exact Reachable.Begin_blocked pno hp (by simp [pageOk, hfail])
  · intro hall s hs
    obtain ⟨h1, h2, _⟩ := Reachable.nothing_recorded hall s hs
    refine ⟨h2, ?_⟩
    intro g hg hfn
    obtain ⟨ops, hb⟩ := h1 g hg
    have hwf := hs.wf g hg
    cases g with
    | mk fn parent body =>
      simp only at hfn hb
      subst hfn hb
      simp [WF] at hwf

theorem run_down : run worldDown onePage (init onePage) [.step 0, .step 0] = some stuckDown := by
  decide

/-- In the stuck state of the failed single page no move is possible. -/
theorem stuckDown_deadlock (mv : Move) : exec worldDown onePage stuckDown mv = none := by
  cases mv with
  | step i =>
    match i with
    | 0 => rfl
    | 1 => rfl
    | _ + 2 => rfl
  | comm i j =>
    match i, j with
    | 0, 0 => rfl
    | 0, 1 => rfl
    | 0, _ + 2 => rfl
    | 1, 0 => rfl
    | 1, 1 => rfl
    | 1, _ + 2 => rfl
    | _ + 2, _ => rfl

/-- Witness for C4: a single page whose fetch fails. `Begin` is left in its
`Wait`, the error is not recorded, and the run is stuck. -/
theorem failed_page_blocks_Begin_witness :
    (⟨.Begin, none, .code [Op.wgWait .wgOuter]⟩ : Goroutine).body ≠ .code [] ∧
    stuckDown.errors = [] := by
  have h := failed_page_blocks_Begin worldDown onePage 0
    (.fetch "http://site/karachi/delivery?&Search_PageNo=0") (by decide) (by decide)
  exact ⟨h.2.1 stuckDown ⟨_, run_down⟩ 0 _ rfl rfl,
    (h.2.2 (fun _ => rfl) stuckDown ⟨_, run_down⟩).1⟩

/-! ## The channels of the caller -/

/-- No operation of the crawler sends on a channel of the caller. -/
theorem WF.emitted_nil {w : World} {t : Crawler} {g : Goroutine} {op : Op} {rest : List Op}
    (h : WF w t g) (hb : g.body = .code (op :: rest)) : op.emitted = [] := by
  cases g with
  | mk fn parent body =>
    simp only at hb
    subst hb
    cases fn with
    | Begin =>
      simp only [WF] at h
      rcases mem_Begin (h.subset (List.mem_cons_self _ _)) with h1 | ⟨pno, h1⟩ | h1 <;>
        subst h1 <;> rfl
    | pull pno =>
      simp only [WF] at h
      have hop := h.subset (List.mem_cons_self _ _)
      cases hd : w.NewDocument (pageUrl t pno) with
      | error err =>
        rw [pull_error hd] at hop
        simp at hop
        subst hop
        rfl
      | ok doc =>
        rw [pull_ok hd] at hop
        simp only [List.mem_cons, List.mem_append, List.mem_map, List.mem_singleton,
          List.not_mem_nil, or_false] at hop
        rcases hop with h1 | ⟨n, _, h1⟩ | h1 | h1 | h1 <;> subst h1 <;> rfl
    | outer n =>
      simp only [WF] at h
      have hop := h.subset (List.mem_cons_self _ _)
      obtain ⟨sends, hs, hall⟩ := outer_shape w t n
      rw [hs] at hop
      simp only [List.mem_append, List.mem_singleton] at hop
      rcases hop with h1 | h1
      · obtain ⟨ch, m, rfl, hch | hch⟩ := hall op h1 <;> subst hch <;> rfl
      · subst h1
        rfl
    | aggregator => simp [WF] at h

/-- Nothing is ever sent on a channel of the caller. -/
theorem Reachable.out_nil {w : World} {t : Crawler} :
    ∀ s, Reachable w t s → s.out = [] := by
  apply Reachable.induction
  · rfl
  · intro s mv s1 hs ih hstep
    cases hstep with
    | panic i g op rest hg hb hready hneg => exact ih
    | op i g op rest hg hb hready hpos =>
      have := (hs.wf g (List.mem_iff_getElem?.2 ⟨i, hg⟩)).emitted_nil hb
      simp [ih, this]
    | load i g m hg hb => exact ih
    | store i g v hg hb => exact ih
    | comm i j g a ch m rest hg ha hb hr hch => exact ih

/-- C5, the code in stream mode: the constructor stores the three channels
of the caller, and no goroutine of a run ever sends on any of them, whatever
the pages hold: restaurants and errors go to the two slices as in collect
mode and no completion signal is sent. -/
theorem stream_mode_sends_nothing (w : World) (cnf : Conf) (c : Config) (t : Crawler)
    (hasync : c.Async = true) (hnew : NewWithConfig cnf c = .ok t) :
    t.async = true ∧ t.outItem = c.OutItem ∧ t.outErr = c.OutErr ∧ t.outDone = c.OutDone ∧
    c.OutItem ≠ none ∧ c.OutErr ≠ none ∧ c.OutDone ≠ none ∧
    ∀ s, Reachable w t s → s.out = [] := by
  rw [NewWithConfig_eq] at hnew
  by_cases hbad : c.Async = true ∧ (c.OutItem = none ∨ c.OutDone = none ∨ c.OutErr = none)
  · rw [if_pos hbad] at hnew
    cases hnew
  · rw [if_neg hbad] at hnew
    cases hnew
    have h1 : c.OutItem ≠ none := fun h => hbad ⟨hasync, Or.inl h⟩
    have h2 : c.OutErr ≠ none := fun h => hbad ⟨hasync, Or.inr (Or.inr h)⟩
    have h3 : c.OutDone ≠ none := fun h => hbad ⟨hasync, Or.inr (Or.inl h)⟩
    refine ⟨hasync, ?_, ?_, ?_, h1, h2, h3, Reachable.out_nil⟩ <;> simp [hasync]

theorem run_async :
    run worldOneCard asyncCrawler (init asyncCrawler) movesOneCard = some endOneCard := by
  decide

/-- Witness for C5: a complete run in stream mode over one page with one
card appends the restaurant to the slice and sends nothing to the caller. -/
theorem stream_mode_sends_nothing_witness :
    endOneCard.restaurants = [sampleRestaurant] ∧ endOneCard.out = [] := by
  have h := stream_mode_sends_nothing worldOneCard sampleConf asyncConfig asyncCrawler rfl
    (by decide)
  exact ⟨rfl, h.2.2.2.2.2.2.2 endOneCard ⟨movesOneCard, run_async⟩⟩

/-! ## A restaurant whose detail page cannot be fetched -/

/-- The summary `outer` builds has no menu and no review. -/
theorem summary_menu {w : World} {n : Card} {r : Restaurant} (h : summary w n = .ok r) :
    r.Menu = [] ∧ r.Reviews = [] := by
  unfold summary at h
  cases h1 : n.imgSrc <;> cases h2 : n.href <;> cases h3 : n.dataRating <;>
    cases h4 : w.inhumanParse n.deliveryText <;>
    simp [h1, h2, h3, h4, bind, Except.bind, pure, Except.pure, throw, throwThe,
      MonadExceptOf.throw, Restaurant.zero] at h
  all_goals first
    | (subst h; exact ⟨rfl, rfl⟩)
    | (split at h <;> cases h <;> exact ⟨rfl, rfl⟩)

/-- The code of a restaurant worker whose summary is read: the errors of
`inner`, the restaurant, then `Done`. -/
theorem outer_ok {w : World} {t : Crawler} {n : Card} {r : Restaurant}
    (h : summary w n = .ok r) :
    outer w t n =
      (inner w t r).2.map (fun e => Op.send .chErr (.err e)) ++
        [Op.send .chRest (.item (inner w t r).1), Op.wgDone .wgInner] := by
  simp [outer, h]

/-- C9, the code when the fetch of the detail page of a summary `r` fails
with `err`: `inner` sends `err` and nothing else and returns `r` itself, whose
menu is empty, and `outer` sends that error, then the restaurant on `chRest`,
then calls `Done`. What the aggregation goroutine does with the restaurant
is not tied to anything: over one page `Begin` can return while
`t.restaurants` is still empty, the restaurant only held; and over two pages
the two aggregation goroutines can both read `t.restaurants` before either
assigns it, so that at the end of a complete run one of the two restaurants
is in no slice. -/
theorem failed_detail_fetch_restaurant_lost (w : World) (t : Crawler) (n : Card)
    (r : Restaurant) (err : GoError) (hsum : summary w n = .ok r)
    (hfetch : w.NewDocument (t.baseUrl ++ r.URL) = .error err) :
    inner w t r = (r, [err]) ∧ r.Menu = [] ∧
    outer w t n =
      [Op.send .chErr (.err err), Op.send .chRest (.item r), Op.wgDone .wgInner] ∧
    run worldNoDetail onePage (init onePage) movesEarly = some endEarly ∧
    endEarly.restaurants = [] ∧
    run worldTwoCards twoPages (init twoPages) movesLost = some endLost ∧
    sampleSummary ∉ endLost.restaurants := by
  have hin := inner_error w t r err hfetch
  refine ⟨hin, (summary_menu hsum).1, ?_, ?_, rfl, ?_, ?_⟩
  · rw [outer_ok hsum, hin]
    rfl
  · decide
  · decide
  · decide

theorem run_no_detail :
    run worldNoDetail onePage (init onePage) movesNoDetail = some endNoDetail := by
  decide

/-- Witness for C9: the card of `worldNoDetail`, whose detail page cannot be
fetched: `inner` returns the summary with the fetch error, and `outer` sends
the error, then the summary. -/
theorem failed_detail_fetch_restaurant_lost_witness :
    inner worldNoDetail onePage sampleSummary =
      (sampleSummary, [.fetch "http://site/kfc"]) ∧
    outer worldNoDetail onePage sampleCard =
      [Op.send .chErr (.err (.fetch "http://site/kfc")),
        Op.send .chRest (.item sampleSummary), Op.wgDone .wgInner] := by
  have h := failed_detail_fetch_restaurant_lost worldNoDetail onePage sampleCard
    sampleSummary (.fetch "http://site/kfc") (by decide) (by decide)
  exact ⟨h.1, h.2.2.1⟩

/-! ## Who starts what -/

/-- Only the caller of `Begin` has no parent. -/
theorem Reachable.parent_none {w : World} {t : Crawler} {s : State} (hs : Reachable w t s) :
    ∀ g ∈ s.gs, g.parent = none → g.fn = .Begin := by
  refine Reachable.forall_goroutine (fun g => g.parent = none → g.fn = .Begin)
    ?_ ?_ ?_ ?_ s hs
  · intro _; rfl
  · intro g op rest h _; exact h
  · intro g op rest i _ _ c hc hpar
    rw [parent_of_spawned hc] at hpar
    cases hpar
  · intro g b h _ _; exact h

/-- The `go` statements of `Begin`: one page worker per page number below
`maxPages`, in order. -/
theorem pending_Begin (t : Crawler) :
    pending (.code (Begin t)) = (List.range t.maxPages.toNat).map Fn.pull := by
  simp only [pending, Begin, List.filterMap_append, List.filterMap_cons, Op.starts,
    List.filterMap_nil, List.append_nil, List.nil_append]
  induction List.range t.maxPages.toNat with
  | nil => rfl
  | cons p l ih => simp [List.filterMap_cons, Op.starts, ih]

/-- The `go` statements of the code of each function. -/
theorem pending_codeOf (w : World) (t : Crawler) (fn : Fn) :
    pending (.code (codeOf w t fn)) =
      match fn with
      | .Begin => (List.range t.maxPages.toNat).map Fn.pull
      | .pull pno =>
        match w.NewDocument (pageUrl t pno) with
        | .ok doc => doc.articles.map Fn.outer ++ [Fn.aggregator]
        | .error _ => []
      | .outer _ => []
      | .aggregator => [] := by
  cases fn with
  | Begin => exact pending_Begin t
  | pull pno =>
    simp only [codeOf]
    cases hd : w.NewDocument (pageUrl t pno) with
    | ok doc => exact pending_pull hd
    | error err => simp [pull_error hd, pending, Op.starts]
  | outer n =>
    simp only [codeOf]
    obtain ⟨sends, hs, hall⟩ := outer_shape w t n
    rw [hs]
    simp only [pending, List.filterMap_append, List.filterMap_cons, Op.starts,
      List.filterMap_nil, List.append_nil, List.filterMap_eq_nil_iff]
    intro op hop
    obtain ⟨ch, m, rfl, _⟩ := hall op hop
    rfl
  | aggregator => rfl

/-- A goroutine is among those its parent has started. -/
theorem mem_started {gs : List Goroutine} {g : Goroutine} {i : Nat} (hg : g ∈ gs)
    (hp : g.parent = some i) : g.fn ∈ started i gs := by
  simp only [started, List.mem_filterMap]
  exact ⟨g, hg, by simp [kidOf, hp]⟩

/-- Every goroutine but the caller of `Begin` was started by a `go`
statement of the code of its parent. -/
theorem Reachable.parent_code {w : World} {t : Crawler} {s : State} (hs : Reachable w t s)
    {k : Nat} {g : Goroutine} (hk : s.gs[k]? = some g) (hfn : g.fn ≠ .Begin) :
    ∃ (i : Nat) (gi : Goroutine), g.parent = some i ∧ s.gs[i]? = some gi ∧
      g.fn ∈ started i s.gs ∧ g.fn ∈ pending (.code (codeOf w t gi.fn)) := by
  have hmem : g ∈ s.gs := List.mem_iff_getElem?.2 ⟨k, hk⟩
  cases hpar : g.parent with
  | none => exact absurd (hs.parent_none g hmem hpar) hfn
  | some i =>
    have hi := Reachable.parent_lt s hs k g i hk hpar
    obtain ⟨gi, hgi⟩ : ∃ gi, s.gs[i]? = some gi := ⟨s.gs[i], List.getElem?_eq_getElem hi⟩
    have h1 := mem_started hmem hpar
    have h2 := Reachable.started_append s hs i gi hgi
    refine ⟨i, gi, rfl, hgi, h1, ?_⟩
    rw [← h2]
    exact List.mem_append_left _ h1

/-- A page worker is started by the caller of `Begin`, goroutine 0. -/
theorem Reachable.pull_parent {w : World} {t : Crawler} {s : State} (hs : Reachable w t s)
    {k : Nat} {g : Goroutine} {pno : Nat} (hk : s.gs[k]? = some g) (hfn : g.fn = .pull pno) :
    g.parent = some 0 ∧ pno < t.maxPages.toNat := by
  obtain ⟨i, gi, hpar, hgi, _, hpend⟩ := hs.parent_code hk (by rw [hfn]; simp)
  rw [pending_codeOf, hfn] at hpend
  cases hgfn : gi.fn with
  | Begin =>
    rw [hgfn] at hpend
    simp only [List.mem_map, List.mem_range] at hpend
    obtain ⟨q, hq, hq2⟩ := hpend
    cases hq2
    rw [Reachable.Begin_index s hs i gi hgi hgfn] at hpar
    exact ⟨hpar, hq⟩
  | pull q =>
    rw [hgfn] at hpend
    simp only at hpend
    cases hd : w.NewDocument (pageUrl t q) with
    | ok doc => simp [hd] at hpend
    | error err => simp [hd] at hpend
  | outer n =>
    rw [hgfn] at hpend
    simp at hpend
  | aggregator =>
    rw [hgfn] at hpend
    simp at hpend

/-- An aggregation goroutine is started by a page worker whose fetch succeeded. -/
theorem Reachable.aggregator_parent {w : World} {t : Crawler} {s : State}
    (hs : Reachable w t s) {k : Nat} {g : Goroutine} (hk : s.gs[k]? = some g)
    (hfn : g.fn = .aggregator) :
    ∃ (i : Nat) (gi : Goroutine) (pno : Nat) (doc : Document),
      g.parent = some i ∧ s.gs[i]? = some gi ∧ gi.fn = .pull pno ∧
      w.NewDocument (pageUrl t pno) = .ok doc ∧
      started i s.gs = doc.articles.map Fn.outer ++ [Fn.aggregator] := by
  obtain ⟨i, gi, hpar, hgi, hst, hpend⟩ := hs.parent_code hk (by rw [hfn]; simp)
  have happ := Reachable.started_append s hs i gi hgi
  rw [pending_codeOf] at hpend happ
  rw [hfn] at hpend hst
  cases hgfn : gi.fn with
  | Begin =>
    rw [hgfn] at hpend
    simp at hpend
  | pull q =>
    rw [hgfn] at hpend happ
    simp only at hpend happ
    cases hd : w.NewDocument (pageUrl t q) with
    | error err => simp [hd] at hpend
    | ok doc =>
      refine ⟨i, gi, q, doc, hpar, hgi, hgfn, hd, ?_⟩
      simp only [hd] at happ
      -- the aggregation goroutine is the last to be started: nothing is left
      have hlen : (started i s.gs).length ≤ doc.articles.length + 1 := by
        have := congrArg List.length happ
        simp at this
        omega
      obtain ⟨m, hm, hget⟩ := List.getElem_of_mem hst
      have hget2 : (started i s.gs ++ pending gi.body)[m]? = some Fn.aggregator := by
        rw [List.getElem?_append_left hm, List.getElem?_eq_getElem hm, hget]
      rw [happ] at hget2
      have hm2 : m = doc.articles.length := by
        by_contra hne
        have hlt : m < doc.articles.length := by omega
        rw [List.getElem?_append_left (by simpa using hlt)] at hget2
        simp [List.getElem?_map] at hget2
      have hfull : (started i s.gs).length = doc.articles.length + 1 := by omega
      have hpnil : pending gi.body = [] := by
        have := congrArg List.length happ
        simp at this
        exact List.eq_nil_of_length_eq_zero (by omega)
      rw [hpnil, List.append_nil] at happ
      exact happ
  | outer n =>
    rw [hgfn] at hpend
    simp at hpend
  | aggregator =>
    rw [hgfn] at hpend
    simp at hpend

/-! ## The aggregation goroutines -/

/-- Where the aggregation goroutines come from. The only `go` statement of
an aggregation goroutine is in `pull`, after the `go t.outer(node)`
statements and before the `Wait`, on the path where the fetch succeeded;
`Begin`, `outer` and a `pull` whose fetch failed have none. So in every
reachable state every aggregation goroutine was started by a page worker
whose fetch succeeded, as the last goroutine that page worker starts. A move
that changes `t.restaurants` or `t.errors` is a move of an aggregation
goroutine, and a send on `chRest` or `chErr` completes only in a rendezvous
with an aggregation goroutine that is receiving. -/
theorem aggregation_per_fetched_page (w : World) (t : Crawler) :
    (∀ (pno : Nat) (doc : Document), w.NewDocument (pageUrl t pno) = .ok doc →
      pull w t pno =
        Op.wgAdd .wgInner doc.articles.length ::
          (doc.articles.map Op.goOuter ++
            [Op.goAggregator, Op.wgWait .wgInner, Op.wgDone .wgOuter])) ∧
    (∀ (pno : Nat) (err : GoError), w.NewDocument (pageUrl t pno) = .error err →
      pull w t pno = [Op.send .chErr (.err err)]) ∧
    Op.goAggregator ∉ Begin t ∧
    (∀ n : Card, Op.goAggregator ∉ outer w t n) ∧
    (∀ s, Reachable w t s → ∀ (k : Nat) (g : Goroutine),
      s.gs[k]? = some g → g.fn = .aggregator →
      ∃ (i : Nat) (gi : Goroutine) (pno : Nat) (doc : Document),
        g.parent = some i ∧ s.gs[i]? = some gi ∧ gi.fn = .pull pno ∧
        w.NewDocument (pageUrl t pno) = .ok doc ∧
        started i s.gs = doc.articles.map Fn.outer ++ [Fn.aggregator]) ∧
    (∀ s, Reachable w t s → ∀ (mv : Move) (s1 : State), exec w t s mv = some s1 →
      (s1.restaurants ≠ s.restaurants ∨ s1.errors ≠ s.errors) →
      ∃ (k : Nat) (g : Goroutine), mv = .step k ∧ s.gs[k]? = some g ∧ g.fn = .aggregator) ∧
    (∀ s, Reachable w t s → ∀ (i j : Nat) (s1 : State), exec w t s (.comm i j) = some s1 →
      ∃ a : Goroutine, s.gs[j]? = some a ∧ a.fn = .aggregator ∧ a.body = .receiving) ∧
    (∀ (s : State) (i : Nat) (g : Goroutine) (ch : Chan) (m : Msg) (rest : List Op),
      s.gs[i]? = some g → g.body = .code (.send ch m :: rest) →
      (ch = .chRest ∨ ch = .chErr) → exec w t s (.step i) = none) := by
  refine ⟨fun pno doc h => pull_ok h, fun pno err h => pull_error h, ?_, ?_, ?_, ?_, ?_, ?_⟩
  · intro h
    rcases mem_Begin h with h1 | ⟨pno, h1⟩ | h1 <;> cases h1
  · intro n h
    obtain ⟨sends, hs, hall⟩ := outer_shape w t n
    rw [hs] at h
    simp only [List.mem_append, List.mem_singleton] at h
    rcases h with h1 | h1
    · obtain ⟨ch, m, h2, _⟩ := hall _ h1
      cases h2
    · cases h1
  · intro s hs k g hk hfn
    exact hs.aggregator_parent hk hfn
  · intro s hs mv s1 hex hne
    have hwf : ∀ (k : Nat) (g : Goroutine), s.gs[k]? = some g → WF w t g := fun k g hk =>
      hs.wf g (List.mem_iff_getElem?.2 ⟨k, hk⟩)
    cases (exec_step hex).2 with
    | panic i g op rest hg hb hready hneg => simp at hne
    | op i g op rest hg hb hready hpos => simp at hne
    | load i g m hg hb => simp [State.setBody] at hne
    | store i g v hg hb =>
      exact ⟨i, g, rfl, hg, (hwf i g hg).aggregator_of_inLoop (by rw [hb]; rfl)⟩
    | comm i j g a ch m rest hg ha hb hr hch => simp [State.setBody] at hne
  · intro s hs i j s1 hex
    have hst := (exec_step hex).2
    generalize hmv : Move.comm i j = mv at hst
    cases hst with
    | panic i1 g op rest hg hb hready hneg => cases hmv
    | op i1 g op rest hg hb hready hpos => cases hmv
    | load i1 g m hg hb => cases hmv
    | store i1 g v hg hb => cases hmv
    | comm i1 j1 g a ch m rest hg ha hb hr hch =>
      cases hmv
      refine ⟨a, ha, ?_, hr⟩
      have := hs.wf a (List.mem_iff_getElem?.2 ⟨j, ha⟩)
      cases a with
      | mk fn parent body =>
        simp only at hr
        subst hr
        cases fn <;> simp [WF] at this
        rfl
  · intro s i g ch m rest hg hb hch
    rcases hch with h | h <;> subst h <;> simp [exec, hg, hb, Op.ready]

/-- C6, the code: the aggregation goroutine is started inside `pull`, so a
run of `Begin` over two pages, both fetched, starts two aggregation
goroutines and a run over no page starts none. Over one page whose fetch
fails the page worker is at its send on `chErr` while no aggregation
goroutine has been started, and none ever is. And the two aggregation
goroutines of a run over two pages both assign `t.errors`: when each has
received an error and both read the slice before either assigns it, the
complete run ends with the first error in no slice. -/
theorem several_aggregators :
    (run worldEmpty twoPages (init twoPages) movesTwoPages).map
        (fun s => s.gs.map (fun g => (g.fn, g.body))) =
      some [(.Begin, .code []), (.pull 0, .code []), (.pull 1, .code []),
        (.aggregator, .receiving), (.aggregator, .receiving)] ∧
    (run worldEmpty noPages (init noPages) [.step 0, .step 0]).map
        (fun s => s.gs.map (fun g => (g.fn, g.body))) =
      some [(.Begin, .code [])] ∧
    run worldDown onePage (init onePage) [.step 0, .step 0] = some stuckDown ∧
    stuckDown.gs.map (fun g => g.fn) = [.Begin, .pull 0] ∧
    run worldTwoCards twoPages (init twoPages) movesErrLost = some endErrLost ∧
    GoError.fetch "http://site/kfc" ∉ endErrLost.errors := by
  refine ⟨by decide, by decide, by decide, by decide, by decide, by decide⟩

/-! ## The page workers -/

/-- Goroutine 0 is the caller of `Begin`. -/
theorem Reachable.zero_Begin {w : World} {t : Crawler} :
    ∀ s, Reachable w t s → ∃ g0, s.gs[0]? = some g0 ∧ g0.fn = .Begin := by
  apply Reachable.induction
  · exact ⟨_, rfl, rfl⟩
  · intro s mv s1 _ ih hstep
    obtain ⟨g0, hg0, hfn⟩ := ih
    have hlen : 0 < s.gs.length := (List.getElem?_eq_some.1 hg0).1
    cases hstep with
    | panic => exact ⟨g0, hg0, hfn⟩
    | op i g op rest hg hb hready hpos =>
      simp only
      rw [List.getElem?_append_left (by simpa using hlen)]
      by_cases hi : i = 0
      · subst hi
        rw [hg] at hg0
        cases hg0
        exact ⟨_, List.getElem?_set_self hlen, hfn⟩
      · exact ⟨g0, by rw [List.getElem?_set_ne hi]; exact hg0, hfn⟩
    | load i g m hg hb =>
      simp only [State.setBody]
      by_cases hi : i = 0
      · subst hi
        rw [hg] at hg0
        cases hg0
        exact ⟨_, List.getElem?_set_self hlen, hfn⟩
      · exact ⟨g0, by rw [List.getElem?_set_ne hi]; exact hg0, hfn⟩
    | store i g v hg hb =>
      simp only [State.setBody, State.store]
      by_cases hi : i = 0
      · subst hi
        rw [hg] at hg0
        cases hg0
        exact ⟨_, List.getElem?_set_self hlen, hfn⟩
      · exact ⟨g0, by rw [List.getElem?_set_ne hi]; exact hg0, hfn⟩
    | comm i j g a ch m rest hg ha hb hr hch =>
      simp only [State.setBody]
      by_cases hj : j = 0
      · subst hj
        rw [ha] at hg0
        cases hg0
        exact ⟨_, List.getElem?_set_self (by simpa using hlen), hfn⟩
      · rw [List.getElem?_set_ne hj]
        by_cases hi : i = 0
        · subst hi
          rw [hg] at hg0
          cases hg0
          exact ⟨_, List.getElem?_set_self hlen, hfn⟩
        · exact ⟨g0, by rw [List.getElem?_set_ne hi]; exact hg0, hfn⟩

theorem pagesOf_eq_started (gs : List Goroutine)
    (h : ∀ g ∈ gs, g.parent ≠ some 0 → g.fn.page = none) :
    pagesOf gs = (started 0 gs).filterMap Fn.page := by
  induction gs with
  | nil => rfl
  | cons g gs ih =>
    have ih2 := ih (fun c hc => h c (by simp [hc]))
    simp only [pagesOf, started] at ih2 ⊢
    by_cases hp : g.parent = some 0
    · cases hpg : g.fn.page <;>
        simp [List.filterMap_cons, kidOf, hp, hpg, ih2]
    · have := h g (by simp) hp
      simp [List.filterMap_cons, kidOf, hp, this, ih2]

/-- The page workers started so far, followed by those `Begin` still has to
start, are the pages 0 to `maxPages - 1`, in order. -/
theorem Reachable.pages {w : World} {t : Crawler} {s : State} (hs : Reachable w t s) :
    ∃ g0, s.gs[0]? = some g0 ∧ g0.fn = .Begin ∧
      pagesOf s.gs ++ (pending g0.body).filterMap Fn.page = List.range t.maxPages.toNat := by
  obtain ⟨g0, hg0, hfn⟩ := Reachable.zero_Begin s hs
  refine ⟨g0, hg0, hfn, ?_⟩
  have happ := Reachable.started_append s hs 0 g0 hg0
  rw [hfn] at happ
  simp only [codeOf] at happ
  rw [pending_Begin] at happ
  have hpages : pagesOf s.gs = (started 0 s.gs).filterMap Fn.page := by
    apply pagesOf_eq_started
    intro g hg hpar
    cases hfg : g.fn with
    | pull pno =>
      obtain ⟨k, hk⟩ := List.mem_iff_getElem?.1 hg
      exact absurd (hs.pull_parent hk hfg).1 hpar
    | _ => rfl
  rw [hpages, ← List.filterMap_append, happ]
  induction List.range t.maxPages.toNat with
  | nil => rfl
  | cons p l ih => simp [List.filterMap_cons, Fn.page, ih]

/-- The first move of `Begin`: `t.wgOuter.Add(t.maxPages)`. -/
theorem exec_Begin_Add (w : World) (t : Crawler) (h : 0 ≤ t.maxPages) :
    exec w t (init t) (.step 0) = some (duringLoop w t 0) := by
  have hneg : ¬ (t.maxPages < 0) := by omega
  simp [exec, init, Begin, duringLoop, Op.ready, Op.delta, Op.spawned, Op.emitted,
    Goroutine.withBody, List.range_eq_range', hneg]

/-- One turn of the loop of `Begin`: `go t.pull(k)`. -/
theorem exec_Begin_go (w : World) (t : Crawler) (h : 0 ≤ t.maxPages) (k : Nat)
    (hk : k < t.maxPages.toNat) :
    exec w t (duringLoop w t k) (.step 0) = some (duringLoop w t (k + 1)) := by
  have hneg : ¬ (t.maxPages < 0) := by omega
  have hr : List.range' k (t.maxPages.toNat - k) =
      k :: List.range' (k + 1) (t.maxPages.toNat - (k + 1)) := by
    have : t.maxPages.toNat - k = (t.maxPages.toNat - (k + 1)) + 1 := by omega
    rw [this, List.range'_succ]
  simp [exec, duringLoop, hr, Op.ready, Op.delta, Op.spawned, Op.emitted,
    Goroutine.withBody, List.range_succ, hneg]

/-- The run of `Begin` up to the end of its loop: `Add`, then one
`go t.pull(i)` after the other. -/
theorem run_Begin_loop (w : World) (t : Crawler) (h : 0 ≤ t.maxPages) (k : Nat)
    (hk : k ≤ t.maxPages.toNat) :
    run w t (init t) (List.replicate (k + 1) (.step 0)) = some (duringLoop w t k) := by
  induction k with
  | zero => simp [run, exec_Begin_Add w t h]
  | succ k ih =>
    rw [List.replicate_succ', run_append, ih (by omega)]
    exact exec_Begin_go w t h k (by omega)

theorem duringLoop_end (w : World) (t : Crawler) :
    duringLoop w t t.maxPages.toNat = afterLoop w t := by
  simp [duringLoop, afterLoop]

theorem pagesOf_afterLoop (w : World) (t : Crawler) :
    pagesOf (afterLoop w t).gs = List.range t.maxPages.toNat := by
  simp only [afterLoop, pagesOf, List.filterMap_cons, Fn.page]
  induction List.range t.maxPages.toNat with
  | nil => rfl
  | cons p l ih => simp [List.filterMap_cons, Fn.page, ih]

/-- C2, amended: the crawler of `NewWithConfig` runs over `c.MaxPages` pages
when that is not zero and over `cnf.MaxPages` pages, the loaded
configuration, when it is zero. With that count `M >= 0`, the first `M + 1`
moves of `Begin`, `Add(M)` and the `M` turns of its loop, lead to the state
in which exactly the page workers 0 to `M - 1` are started, one each, and
`Begin` is about to wait. In every reachable state the page workers started
so far, followed by those `Begin` still has to start, are exactly those
pages, so once `Begin` is at its `Wait` or past it they are all started and
there is no other. When the count is zero `Begin` returns after `Add(0)` and
`Wait()`, no page worker is ever started and both slices stay empty. -/
theorem Begin_starts_configured_pages (w : World) (cnf : Conf) (c : Config) (t : Crawler)
    (hsync : c.Async = false) (hnew : NewWithConfig cnf c = .ok t) :
    t.async = false ∧
    t.maxPages = (if c.MaxPages ≠ 0 then c.MaxPages else cnf.MaxPages) ∧
    pending (.code (Begin t)) = (List.range t.maxPages.toNat).map Fn.pull ∧
    (0 ≤ t.maxPages →
      run w t (init t) (List.replicate (t.maxPages.toNat + 1) (.step 0)) =
        some (afterLoop w t) ∧
      pagesOf (afterLoop w t).gs = List.range t.maxPages.toNat) ∧
    (∀ s, Reachable w t s → ∃ g0, s.gs[0]? = some g0 ∧ g0.fn = .Begin ∧
      pagesOf s.gs ++ (pending g0.body).filterMap Fn.page = List.range t.maxPages.toNat ∧
      ((g0.body = .code [Op.wgWait .wgOuter] ∨ g0.body = .code []) →
        pagesOf s.gs = List.range t.maxPages.toNat)) ∧
    (t.maxPages = 0 →
      run w t (init t) [.step 0, .step 0] =
        some { init t with gs := [⟨.Begin, none, .code []⟩] } ∧
      ∀ s, Reachable w t s → pagesOf s.gs = [] ∧ s.restaurants = [] ∧ s.errors = []) := by
  have hfields : t.async = false ∧
      t.maxPages = (if c.MaxPages ≠ 0 then c.MaxPages else cnf.MaxPages) := by
    rw [NewWithConfig_eq] at hnew
    by_cases hbad : c.Async = true ∧ (c.OutItem = none ∨ c.OutDone = none ∨ c.OutErr = none)
    · rw [if_pos hbad] at hnew
      cases hnew
    · rw [if_neg hbad] at hnew
      cases hnew
      exact ⟨hsync, rfl⟩
  refine ⟨hfields.1, hfields.2, pending_Begin t, ?_, ?_, ?_⟩
  · intro hpos
    refine ⟨?_, pagesOf_afterLoop w t⟩
    rw [run_Begin_loop w t hpos t.maxPages.toNat (Nat.le_refl _), duringLoop_end]
  · intro s hs
    obtain ⟨g0, hg0, hfn, hp⟩ := hs.pages
    refine ⟨g0, hg0, hfn, hp, ?_⟩
    intro hb
    rcases hb with hb | hb <;> rw [hb] at hp <;> simpa [pending, Op.starts] using hp
  intro hzero
  have hpages : ∀ s, Reachable w t s → pagesOf s.gs = [] := by
    intro s hs
    obtain ⟨g0, _, _, h⟩ := hs.pages
    rw [hzero] at h
    simp at h
    exact h.1
  refine ⟨?_, ?_⟩
  · have hB : Begin t = [Op.wgAdd .wgOuter 0, Op.wgWait .wgOuter] := by
      simp [Begin, hzero]
    simp [run, exec, init, hB, Op.ready, Op.delta, Op.spawned, Op.emitted,
      Goroutine.withBody, State.counter]
  · intro s hs
    refine ⟨hpages s hs, ?_⟩
    revert s
    apply Reachable.induction
    · exact ⟨rfl, rfl⟩
    · intro s mv s1 hs ih hstep
      cases hstep with
      | panic i g op rest hg hb hready hneg => exact ih
      | op i g op rest hg hb hready hpos => exact ih
      | comm i j g a ch m rest hg ha hb hr hch => exact ih
      | load i g m hg hb => exact ih
      | store i g v hg hb =>
        exfalso
        have hfn : g.fn = .aggregator :=
          (hs.wf g (List.mem_iff_getElem?.2 ⟨i, hg⟩)).aggregator_of_inLoop (by rw [hb]; rfl)
        obtain ⟨k, gk, pno, doc, _, hgk, hfk, _, _⟩ := hs.aggregator_parent hg hfn
        have := (hs.pull_parent hgk hfk).2
        rw [hzero] at this
        simp at this

/-- Witness for C2, amended: with `MaxPages` left at zero and three pages in
the loaded configuration, the first four moves of `Begin` start the page
workers 0, 1 and 2. -/
theorem Begin_starts_configured_pages_witness :
    run worldEmpty threePages (init threePages) [.step 0, .step 0, .step 0, .step 0] =
      some (afterLoop worldEmpty threePages) ∧
    pagesOf (afterLoop worldEmpty threePages).gs = [0, 1, 2] := by
  have h := (Begin_starts_configured_pages worldEmpty sampleConf zeroPagesConfig threePages
    rfl (by decide)).2.2.2.1 (by decide)
  exact ⟨h.1, h.2⟩

/-- C2 as stated fails for `MaxPages = 0`: the constructor takes the page
count of the loaded configuration, here three, and `Begin` starts the page
workers 0, 1 and 2. -/
theorem zero_MaxPages_starts_configured_pages :
    zeroPagesConfig.MaxPages = 0 ∧ zeroPagesConfig.Async = false ∧
    NewWithConfig sampleConf zeroPagesConfig = .ok threePages ∧
    (run worldEmpty threePages (init threePages) [.step 0, .step 0, .step 0, .step 0]).map
      (fun s => pagesOf s.gs) = some [0, 1, 2] := by
  decide

end Hungrilla
